import Mathlib

/-!
# A verification development for the gitdu repository

Shallow embedding, in Lean, of the parts of gitdu that the checked
properties talk about:

* the glob matcher (`git_operations.py`, `_matches_glob_pattern`),
* the statistics aggregation engine (`stats_aggregator.py`,
  `fastFromCommits`, `aggregate_all_file_stats_standard`,
  `aggregate_dir_stats`, `get_all_dirs`),
* the persistent JSONL cache (`cache.py`, `JsonlCache`: `upsert`,
  `_remove_entry`, `_compact_cache`, `refresh`,
  `check_and_refresh_stale` and their helpers).

Modelling conventions:

* ISO `YYYY-MM-DD` date strings are compared lexicographically by the
  source; they are modelled as `Nat` with the usual order.
* Python `set`s of author emails are modelled as `Finset String`
  (the spec declares the serialized author list order-irrelevant).
* The `git log --numstat --reverse` stream parsed by the fast strategy
  is modelled at commit granularity: a commit header (hash, author
  email, date, subject) followed by its numstat entries
  (insertions, deletions, path), commits listed oldest-first.
* Process-external calls (the git subprocess, `GitPython` queries)
  enter the model as explicit parameters: the parsed commit list, the
  tracked-file listing, a `latestHash` oracle for per-path latest
  commit hashes, the diff outcome as an `Except`.
* `KeyboardInterrupt` delivery is modelled by an optional counter: the
  interrupt fires after that many completed loop iterations of the
  phase it targets.
* The dict `self._data` is a list of records with pairwise-distinct
  paths; the JSONL file is a second list that upserts append to.
* The `_updated` wall-clock timestamp attached by `_save_entry` is
  omitted: the spec declares it monitoring-only, not semantic.
-/

/-- One numstat line of the bulk `git log --numstat` output:
insertions, deletions, path (a `-` pair for binary files is already
mapped to `0`/`0` by the parser, so `Nat` fields suffice). -/
structure NumstatEntry where
  insertions : Nat
  deletions : Nat
  path : String
deriving DecidableEq

/-- One commit of the parsed history: the header fields
(`hash|author_email|date|subject`) plus the numstat entries belonging
to that header. -/
structure Commit where
  hash : String
  email : String
  date : Nat
  message : String
  entries : List NumstatEntry
deriving DecidableEq

/-- A cached statistics record (`StatRecord` of the spec, the dict
shape built by the aggregators in `stats_aggregator.py`).  Marker
records reuse the same shape with their extra fields; fields that a
given record kind does not carry stay at their `none`/default value. -/
structure Rec where
  path : String
  is_dir : Bool := false
  commits : Nat := 0
  insertions : Nat := 0
  deletions : Nat := 0
  authors : Finset String := ∅
  first_commit : Option Nat := none
  last_commit : Option Nat := none
  latest_author : Option String := none
  last_commit_hash : Option String := none
  last_commit_message : Option String := none
  phase : Option String := none
  total_files : Option Nat := none
  remaining_files : Option Nat := none
  total_dirs : Option Nat := none
  glob_pattern : Option String := none
deriving DecidableEq

/-- `DEFAULT_GLOB_PATTERN` from `git_operations.py`. -/
def DEFAULT_GLOB_PATTERN : String := "**/*"

/-- `REPO_HEAD_MARKER` from `cache.py`. -/
def REPO_HEAD_MARKER : String := "__repo_head__"

/-- `REFRESH_PROGRESS_MARKER` from `cache.py`. -/
def REFRESH_PROGRESS_MARKER : String := "__refresh_progress__"

/-- Fuel-bounded wildcard matching of one path segment against one
pattern segment, with `*` (any run) and `?` (any one character);
models the `fnmatch`-style segment matching that `pathlib.Path.match`
performs (character classes are unused by this program's patterns).
The fuel is an upper bound on the recursion depth; every recursive
call shrinks `pattern.length + text.length`, so
`pattern.length + text.length + 1` fuel is always enough. -/
def segMatchF : Nat → List Char → List Char → Bool
  | 0, _, _ => false
  | _ + 1, [], text => text.isEmpty
  | fuel + 1, '*' :: ps, [] => segMatchF fuel ps []
  | fuel + 1, '*' :: ps, c :: cs =>
      segMatchF fuel ps (c :: cs) || segMatchF fuel ('*' :: ps) cs
  | fuel + 1, '?' :: ps, text =>
      match text with
      | [] => false
      | _ :: cs => segMatchF fuel ps cs
  | fuel + 1, p :: ps, text =>
      match text with
      | [] => false
      | c :: cs => p == c && segMatchF fuel ps cs

/-- Wildcard matching of one segment, with enough fuel. -/
def segMatch (pattern text : List Char) : Bool :=
  segMatchF (pattern.length + text.length + 1) pattern text

/-- Split a character list at `/` separators (the behaviour of
`str.split("/")` / the segment decomposition `pathlib` performs on the
relative paths this program feeds it). -/
def splitOnSlash : List Char → List (List Char)
  | [] => [[]]
  | '/' :: rest => [] :: splitOnSlash rest
  | c :: rest =>
      match splitOnSlash rest with
      | [] => [[c]]
      | seg :: segs => (c :: seg) :: segs

/-- Does the character list contain the substring `**/`
(Python's `"**/" in pattern`)? -/
def hasStarStarSlash : List Char → Bool
  | '*' :: '*' :: '/' :: _ => true
  | _ :: rest => hasStarStarSlash rest
  | [] => false

/-- Remove every (left-to-right, non-overlapping) occurrence of `**/`
(Python's `pattern.replace("**/", "")`). -/
def dropStarStarSlash : List Char → List Char
  | '*' :: '*' :: '/' :: rest => dropStarStarSlash rest
  | c :: rest => c :: dropStarStarSlash rest
  | [] => []

/-- Does the character list start with `**`
(Python's `pattern.startswith("**")`)? -/
def startsStarStar : List Char → Bool
  | '*' :: '*' :: _ => true
  | _ => false

/-- Model of `pathlib.Path(filepath).match(pattern)` for relative
patterns as the source uses it: the pattern's `/`-separated segments
are matched against the trailing segments of the path, right-aligned;
a `**` segment behaves like a non-recursive `*` (the documented
`Path.match` behaviour the glob matcher compensates for). -/
def pathMatch (filepath pattern : String) : Bool :=
  let fparts := splitOnSlash filepath.toList
  let pparts := splitOnSlash pattern.toList
  decide (pparts.length ≤ fparts.length) &&
    (List.zip pparts (fparts.drop (fparts.length - pparts.length))).all
      (fun pq => segMatch pq.1 pq.2)

/-- `_matches_glob_pattern` from `git_operations.py`. -/
def matchesGlobPattern (filepath pattern : String) : Bool :=
  if pattern = "**/*" then true
  else if pathMatch filepath pattern then true
  else if hasStarStarSlash pattern.toList &&
      pathMatch filepath (String.mk (dropStarStarSlash pattern.toList)) then true
  else if startsStarStar pattern.toList &&
      (pathMatch filepath (String.mk (pattern.toList.drop 2)) ||
        pathMatch filepath (String.mk ('*' :: pattern.toList.drop 2))) then true
  else false

/-- `GitOperations.get_tracked_files`: the raw `git ls-files` listing
enters as `allTracked`; a non-default glob filters it. -/
def get_tracked_files (allTracked : List String) (glob_pattern : String) :
    List String :=
  if glob_pattern = DEFAULT_GLOB_PATTERN then allTracked
  else allTracked.filter (fun f => matchesGlobPattern f glob_pattern)

/-- `GitOperations.get_changed_files`: when a current HEAD exists the
underlying `git diff --name-only` outcome (`gitDiff`) is returned, a
failure surfacing as the dedicated `GitOperationError` (the `.error`
case); with no current HEAD it falls back to the full tracked-file
listing and cannot raise. -/
def get_changed_files (gitDiff : Except Unit (List String))
    (allTracked : List String) (currentHead : Option String) :
    Except Unit (List String) :=
  match currentHead with
  | some _ => gitDiff
  | none => .ok allTracked

/-! ## Decimal strings and Python line primitives -/

/-- The decimal digit character of a value below ten. -/
def digitChar10 (n : Nat) : Char := Char.ofNat (48 + n)

/-- Numeric value of a decimal digit character, `none` otherwise. -/
def digitVal? (c : Char) : Option Nat :=
  if '0' ≤ c ∧ c ≤ '9' then some (c.toNat - 48) else none

/-- `str.isdigit()`, restricted to the ASCII decimal digits (the only
digit characters git emits). -/
def isDigitChar (c : Char) : Bool := (digitVal? c).isSome

/-- Python `int(...)` on a plain non-negative decimal literal: `none`
models the `ValueError` raised for anything else (signs, spacing and
underscore separators never occur in numstat output and are not
modelled). -/
def pyInt? (l : List Char) : Option Nat :=
  match l with
  | [] => none
  | _ :: _ =>
      l.foldl (fun acc c =>
        acc.bind (fun a => (digitVal? c).map (fun d => 10 * a + d)))
        (some 0)

/-- Decimal rendering of a natural number, most significant digit
first (fuel-driven so that it reduces definitionally). -/
def natDigitsAux : Nat → Nat → List Char
  | 0, _ => []
  | fuel + 1, n =>
      if n < 10 then [digitChar10 n]
      else natDigitsAux fuel (n / 10) ++ [digitChar10 (n % 10)]

/-- The decimal digit string of `n`, as git prints counts and
(fixed-width) date fields. -/
def natDigits (n : Nat) : List Char := natDigitsAux (n + 1) n

/-- Python whitespace — the default strip set of `str.strip()`. -/
def isPyWS (c : Char) : Bool :=
  c == ' ' || c == '\t' || c == '\n' || c == '\r' ||
    c == '\x0b' || c == '\x0c'

/-- `not line.strip()`: the line is entirely whitespace. -/
def pyBlank (l : List Char) : Bool := l.all isPyWS

/-- Python's `in` test on a string, as a character scan. -/
def hasChar (x : Char) (l : List Char) : Bool := l.any (fun c => c == x)

/-- Python string `<`: lexicographic code-point comparison, a strict
prefix ordering first. -/
def pyStrLt : List Char → List Char → Bool
  | [], [] => false
  | [], _ :: _ => true
  | _ :: _, [] => false
  | x :: xs, y :: ys => if x = y then pyStrLt xs ys else decide (x < y)

/-- Split off everything before the first occurrence of `sep`
(`none` when `sep` does not occur). -/
def breakAtChar (sep : Char) : List Char → Option (List Char × List Char)
  | [] => none
  | c :: cs =>
      if c = sep then some ([], cs)
      else (breakAtChar sep cs).map (fun pr => (c :: pr.1, pr.2))

/-- `line.split(sep, maxsplit)`: at most `maxsplit` cuts, the last
chunk keeping any further separators. -/
def splitMax (sep : Char) : Nat → List Char → List (List Char)
  | 0, l => [l]
  | budget + 1, l =>
      match breakAtChar sep l with
      | none => [l]
      | some (pre, rest) => pre :: splitMax sep budget rest

/-- `line.split(sep)`: unlimited split. -/
def splitChar (sep : Char) : List Char → List (List Char)
  | [] => [[]]
  | c :: cs =>
      if c = sep then [] :: splitChar sep cs
      else
        match splitChar sep cs with
        | [] => [[c]]
        | h :: t => (c :: h) :: t

/-- The per-file statistics dictionaries (`all_stats` in
`stats_aggregator.py`), modelled as maps from path to record. -/
def StatsMap : Type := String → Option Rec

/-- The freshly initialized per-file record both strategies
pre-allocate for every requested path. -/
def initStats (path : String) : Rec := { path := path }

/-- The pre-allocation loop `for path in files: all_stats[path] = ...`
of both strategies. -/
def initAllStats (files : List String) : StatsMap :=
  fun p => if p ∈ files then some (initStats p) else none

/-- `all_stats[p] = f(all_stats[p])`: point update of the dictionary. -/
def updateMap (m : StatsMap) (p : String) (f : Rec → Rec) : StatsMap :=
  fun q => if q = p then (m q).map f else m q

/-- The filter the fast strategy applies to each numstat line's path:
`filepath in files_set and (glob_pattern == DEFAULT_GLOB_PATTERN or
_matches_glob_pattern(filepath, glob_pattern))`. -/
def fastLineOK (files : List String) (glob_pattern : String)
    (filepath : String) : Prop :=
  filepath ∈ files ∧
    (glob_pattern = DEFAULT_GLOB_PATTERN ∨
      matchesGlobPattern filepath glob_pattern = true)

instance (files : List String) (glob_pattern filepath : String) :
    Decidable (fastLineOK files glob_pattern filepath) := by
  unfold fastLineOK; infer_instance

/-- The guarded running-minimum update
`if not first or date < first: first = date` shared by the aggregation
routines for `first_commit` dates. -/
def optMinStep (a : Option Nat) (d : Nat) : Option Nat :=
  match a with
  | none => some d
  | some x => if d < x then some d else some x

/-- The guarded running-maximum update
`if not last or date > last: last = date` for `last_commit` dates. -/
def optMaxStep (a : Option Nat) (d : Nat) : Option Nat :=
  match a with
  | none => some d
  | some x => if x < d then some d else some x

/-- The fast strategy's per-numstat-line update of a file's record,
under the current commit header: bump the commit count, accumulate
insertions/deletions, add the author, widen the `first_commit` /
`last_commit` date range, and — only when `last_commit` strictly
advances — overwrite `last_commit_hash`, `latest_author` and the
50-character-truncated `last_commit_message` from the header. -/
def applyNumstat (current : Commit) (e : NumstatEntry) (stats : Rec) : Rec :=
  let advances : Bool :=
    match stats.last_commit with
    | none => true
    | some lc => decide (lc < current.date)
  { stats with
    commits := stats.commits + 1,
    insertions := stats.insertions + e.insertions,
    deletions := stats.deletions + e.deletions,
    authors := insert current.email stats.authors,
    first_commit := optMinStep stats.first_commit current.date,
    last_commit :=
      if advances then some current.date else stats.last_commit,
    last_commit_hash :=
      if advances then some current.hash else stats.last_commit_hash,
    latest_author :=
      if advances then some current.email else stats.latest_author,
    last_commit_message :=
      if advances then some (current.message.take 50)
      else stats.last_commit_message }

/-- Processing of one commit of the `git log --numstat --reverse`
stream by the fast strategy: each numstat line under the commit's
header that passes the working-set/glob filter updates its file's
record. -/
def fastStep (files : List String) (glob_pattern : String)
    (m : StatsMap) (current : Commit) : StatsMap :=
  current.entries.foldl
    (fun m e =>
      if fastLineOK files glob_pattern e.path then
        updateMap m e.path (applyNumstat current e)
      else m)
    m

/-- The commit-granularity view of the fast strategy's fold: `commits`
lists the history oldest-first (`git log --reverse`), each element
carrying its header fields and numstat lines.  The program itself
consumes raw text lines — that parser is
`aggregate_all_file_stats_fast` below, and `renderGitLog_stats`
relates it to this fold for well-formed streams.  The trailing
`authors = list(authors)` serialization step is the identity in this
model (author sets are `Finset`s throughout). -/
def fastFromCommits (commits : List Commit)
    (files : List String) (glob_pattern : String) : StatsMap :=
  commits.foldl (fastStep files glob_pattern) (initAllStats files)

/-- The standard strategy's per-relevant-file update under one commit:
bump the commit count, add the author, widen the date range,
accumulate the insertions/deletions found for the file in the commit's
per-file stats dict, and — only when `last_commit_hash` is still unset,
i.e. on the first touch of the newest-first traversal — record
`last_commit_hash`, `latest_author` and the truncated message. -/
def applyCommitStd (commit : Commit) (filepath : String) (stats : Rec) : Rec :=
  let file_stats := commit.entries.find? (fun e => e.path == filepath)
  let firstTouch : Bool := stats.last_commit_hash.isNone
  { stats with
    commits := stats.commits + 1,
    authors := insert commit.email stats.authors,
    first_commit := optMinStep stats.first_commit commit.date,
    last_commit := optMaxStep stats.last_commit commit.date,
    insertions := stats.insertions +
      (match file_stats with
       | some fs => fs.insertions
       | none => 0),
    deletions := stats.deletions +
      (match file_stats with
       | some fs => fs.deletions
       | none => 0),
    last_commit_hash :=
      if firstTouch then some commit.hash else stats.last_commit_hash,
    latest_author :=
      if firstTouch then some commit.email else stats.latest_author,
    last_commit_message :=
      if firstTouch then some (commit.message.take 50)
      else stats.last_commit_message }

/-- The `relevant_files` a commit contributes under the standard
strategy: the commit's changed-file set
(`commit.stats.files.keys()`, a set — modelled as the deduplicated
path list) intersected with the working set, glob-filtered when the
glob is non-default. -/
def stdRelevant (files : List String) (glob_pattern : String)
    (commit : Commit) : List String :=
  let changed_files := (commit.entries.map (fun e => e.path)).dedup
  let relevant_files := changed_files.filter (fun f => f ∈ files)
  if glob_pattern ≠ DEFAULT_GLOB_PATTERN then
    relevant_files.filter (fun f => matchesGlobPattern f glob_pattern)
  else relevant_files

/-- Processing of one commit by the standard strategy: update each
relevant file's record. -/
def stdStep (files : List String) (glob_pattern : String)
    (m : StatsMap) (commit : Commit) : StatsMap :=
  (stdRelevant files glob_pattern commit).foldl
    (fun m f => updateMap m f (applyCommitStd commit f)) m

/-- `aggregate_all_file_stats_standard` from `stats_aggregator.py`:
iterates the same history in the repository's native newest-first
order (`repo.iter_commits()`), so its input is the reverse of the fast
strategy's. -/
def aggregate_all_file_stats_standard (commits : List Commit)
    (files : List String) (glob_pattern : String) : StatsMap :=
  commits.foldl (stdStep files glob_pattern) (initAllStats files)

/-! ## The fast strategy's line-level parser -/

/-- The `current_commit` dict of the fast parser: the four fields cut
out of a recognized `%H|%ae|%ad|%s` header line. -/
structure LogHeader where
  hash : List Char
  email : List Char
  date : List Char
  message : List Char
deriving DecidableEq

/-- The per-file dictionary the fast parser fills: the same shape as
`Rec`, except that the `first_commit`/`last_commit` fields hold the
raw date strings cut from the header (the source never parses them —
they are compared as strings). -/
structure FastRec where
  path : String
  commits : Nat := 0
  insertions : Nat := 0
  deletions : Nat := 0
  authors : Finset String := ∅
  first_commit : Option (List Char) := none
  last_commit : Option (List Char) := none
  latest_author : Option String := none
  is_dir : Bool := false
  last_commit_hash : Option String := none
  last_commit_message : Option String := none
deriving DecidableEq

/-- The fast parser's `all_stats` dictionary. -/
def FastMap : Type := String → Option FastRec

/-- The freshly initialized per-file record the fast parser
pre-allocates. -/
def initFastStats (path : String) : FastRec := { path := path }

/-- The pre-allocation loop of the fast parser. -/
def initAllFastStats (files : List String) : FastMap :=
  fun p => if p ∈ files then some (initFastStats p) else none

/-- Point update of the fast parser's dictionary. -/
def updateFastMap (m : FastMap) (p : String) (f : FastRec → FastRec) :
    FastMap :=
  fun q => if q = p then (m q).map f else m q

/-- The commit-header recognition test of `stats_aggregator.py` line
114: `'|' in line and not line[0].isdigit() and '-' not in line[:10]`.
A header whose hash starts with a decimal digit is NOT recognized. -/
def headerLineCheck (l : List Char) : Bool :=
  hasChar '|' l && !(isDigitChar (l.headD ' ')) &&
    !(hasChar '-' (l.take 10))

/-- The fast parser's per-numstat-line record update under the current
header, with the date fields compared as Python strings (`<`/`>` on
the raw header date). -/
def applyNumstatLine (cur : LogHeader) (insertions deletions : Nat)
    (stats : FastRec) : FastRec :=
  let advances : Bool :=
    match stats.last_commit with
    | none => true
    | some lc => pyStrLt lc cur.date
  { stats with
    commits := stats.commits + 1,
    insertions := stats.insertions + insertions,
    deletions := stats.deletions + deletions,
    authors := insert (String.mk cur.email) stats.authors,
    first_commit :=
      match stats.first_commit with
      | none => some cur.date
      | some fc => if pyStrLt cur.date fc then some cur.date else some fc,
    last_commit := if advances then some cur.date else stats.last_commit,
    last_commit_hash :=
      if advances then some (String.mk cur.hash)
      else stats.last_commit_hash,
    latest_author :=
      if advances then some (String.mk cur.email) else stats.latest_author,
    last_commit_message :=
      if advances then some (String.mk (cur.message.take 50))
      else stats.last_commit_message }

/-- One iteration of the fast parser's line loop
(`stats_aggregator.py` lines 106-160): skip blank lines; a line
passing the header test replaces `current_commit` when
`line.split('|', 3)` yields at least three parts (and is consumed
either way); otherwise, under a current header, a line containing a
tab whose first two tab-separated fields parse as counts (`-` counts
as 0) updates the record of its third field when that path passes the
working-set/glob filter. -/
def fastLogLine (files : List String) (glob_pattern : String)
    (st : Option LogHeader × FastMap) (line : List Char) :
    Option LogHeader × FastMap :=
  if pyBlank line then st
  else if headerLineCheck line then
    match splitMax '|' 3 line with
    | h :: e :: d :: rest => (some ⟨h, e, d, rest.headD []⟩, st.2)
    | _ => st
  else
    match st.1 with
    | none => st
    | some cur =>
        if hasChar '\t' line then
          match splitChar '\t' line with
          | p0 :: p1 :: p2 :: _ =>
              (match (if p0 = ['-'] then some 0 else pyInt? p0),
                     (if p1 = ['-'] then some 0 else pyInt? p1) with
               | some ins, some del =>
                   let filepath := String.mk p2
                   if fastLineOK files glob_pattern filepath then
                     (st.1,
                       updateFastMap st.2 filepath
                         (applyNumstatLine cur ins del))
                   else st
               | _, _ => st)
          | _ => st
        else st

/-- `aggregate_all_file_stats_fast` from `stats_aggregator.py`: the
line-level bulk parser.  `lines` is `result.stdout.split('\n')` of
`git log --numstat --pretty=format:%H|%ae|%ad|%s --date=short
--reverse`; the fold starts with no current header and the
pre-allocated dictionary, and the trailing `authors = list(authors)`
serialization is the identity in this model. -/
def aggregate_all_file_stats_fast (lines : List (List Char))
    (files : List String) (glob_pattern : String) : FastMap :=
  (lines.foldl (fastLogLine files glob_pattern)
    (none, initAllFastStats files)).2

/-- The header line git prints for a commit under
`--pretty=format:%H|%ae|%ad|%s` (the date rendered as its decimal
digit string). -/
def commitHeaderLine (c : Commit) : List Char :=
  c.hash.data ++ '|' ::
    (c.email.data ++ '|' :: (natDigits c.date ++ '|' :: c.message.data))

/-- The numstat line git prints for one changed file. -/
def numstatLine (e : NumstatEntry) : List Char :=
  natDigits e.insertions ++ '\t' ::
    (natDigits e.deletions ++ '\t' :: e.path.data)

/-- The header record the parser cuts from `commitHeaderLine c`. -/
def headerOf (c : Commit) : LogHeader :=
  { hash := c.hash.data, email := c.email.data,
    date := natDigits c.date, message := c.message.data }

/-- The block of lines git prints for one commit: the header, its
numstat lines, and the blank separator line (which the parser
skips). -/
def renderCommit (c : Commit) : List (List Char) :=
  commitHeaderLine c :: (c.entries.map numstatLine ++ [[]])

/-- The rendered `git log` stream of an oldest-first history. -/
def renderGitLog (commits : List Commit) : List (List Char) :=
  commits.flatMap renderCommit

/-- Well-formedness of a commit for the rendered stream: the hash is
nonempty, does not start with a decimal digit (the header-recognition
test of `stats_aggregator.py` line 114 — real hex hashes starting with
a digit FAIL it), the first ten characters of its header line carry no
`-`, hash and email contain no `|` (the header split), and no header
field or entry path contains a tab or newline (line and column
integrity of the stream). -/
def goodCommit (c : Commit) : Bool :=
  !(c.hash.data.isEmpty) &&
  !(isDigitChar (c.hash.data.headD ' ')) &&
  !(hasChar '-' ((commitHeaderLine c).take 10)) &&
  !(hasChar '|' c.hash.data) && !(hasChar '|' c.email.data) &&
  !(hasChar '\t' c.hash.data) && !(hasChar '\t' c.email.data) &&
  !(hasChar '\t' c.message.data) &&
  !(hasChar '\n' c.hash.data) && !(hasChar '\n' c.email.data) &&
  !(hasChar '\n' c.message.data) &&
  c.entries.all (fun e =>
    !(hasChar '\t' e.path.data) && !(hasChar '\n' e.path.data))

/-- How a record of the commit-granularity fold reads off as a parser
record: identical fields, the dates rendered to their digit
strings. -/
def recBridge (r : Rec) : FastRec :=
  { path := r.path, commits := r.commits, insertions := r.insertions,
    deletions := r.deletions, authors := r.authors,
    first_commit := r.first_commit.map natDigits,
    last_commit := r.last_commit.map natDigits,
    latest_author := r.latest_author, is_dir := r.is_dir,
    last_commit_hash := r.last_commit_hash,
    last_commit_message := r.last_commit_message }

/-- Pointwise lift of `recBridge` to whole dictionaries. -/
def mapBridge (m : StatsMap) : FastMap := fun p => (m p).map recBridge

/-- Strip trailing `/` characters: `dir_path.rstrip(os.sep)`. -/
def rstripSlash (s : String) : String :=
  String.mk (s.toList.reverse.dropWhile (fun c => c == '/')).reverse

/-- The record-scope prefix used by `aggregate_dir_stats`:
`dir_path.rstrip(os.sep) + os.sep if dir_path else ""`. -/
def dirPrefix (dir_path : String) : String :=
  if dir_path = "" then "" else rstripSlash dir_path ++ "/"

/-- One-character step of `re.match` for the scope pattern of
`aggregate_dir_stats`: a `.` in the pattern matches any character
except a newline, every other character only itself (characters with
a structural regex meaning are constrained away by `regexTame` in the
theorems that use the scope). -/
def reCharMatch (p c : Char) : Bool :=
  if p = '.' then !(c = '\n') else p = c

/-- `re.match(f'^{prefix}.*', path)` for a prefix made of literal
characters and `.` wildcards: each pattern character consumes one path
character, the path may continue arbitrarily (the trailing `.*`), and
the leading `^` is `re.match`'s own anchoring. -/
def reMatchScope : List Char → List Char → Bool
  | [], _ => true
  | _ :: _, [] => false
  | p :: ps, c :: cs => reCharMatch p c && reMatchScope ps cs

/-- The characters the scope matcher treats faithfully: everything
except the regex metacharacters with structural meaning (`.` is
modelled as the any-character wildcard, so it stays tame). -/
def regexTame (c : Char) : Bool :=
  !(c = '*' || c = '+' || c = '?' || c = '(' || c = ')' ||
    c = '[' || c = ']' || c = '\x7b' || c = '\x7d' || c = '\\' ||
    c = '|' || c = '^' || c = '$')

/-- Does `path` fall in the scan scope of `aggregate_dir_stats` for
`dir_path`?  The source selects records with
`q.path.matches(f'^{prefix}.*')` — the directory prefix is spliced
into the regex UNESCAPED, so a `.` in the directory name matches any
character of the record path, not only a literal dot. -/
def inDirScope (dir_path path : String) : Bool :=
  reMatchScope (dirPrefix dir_path).toList path.toList

/-- Stand-in for the synthetic multi-child directory hash
`str(hash(tuple(sorted(hashes))))`: the spec (§9) documents that value
as process-local, non-cryptographic and potentially non-reproducible,
and no checked property depends on it, so any deterministic
combination serves. -/
def syntheticDirHash (hashes : List String) : String :=
  String.intercalate "," hashes

/-- The running aggregation state of `aggregate_dir_stats`' loop: the
`agg` dict under construction plus the `hashes` and
`latest_commit_date` loop locals. -/
structure DirAggState where
  agg : Rec
  hashes : List String
  latest_commit_date : Option Nat
deriving DecidableEq

/-- Does `doc`'s `last_commit` advance the running maximum
(the guard of the `last_commit` branch of `aggregate_dir_stats`)? -/
def lastAdvances (aggLast : Option Nat) (docLast : Option Nat) : Bool :=
  match docLast, aggLast with
  | some _, none => true
  | some dlc, some alc => decide (alc < dlc)
  | none, _ => false

/-- One iteration of the `for doc in docs` loop of
`aggregate_dir_stats` (`stats_aggregator.py`), flattened into
independent per-field updates (each mirrors the corresponding
conditional of the source loop): records whose path equals the
directory itself are skipped; every other record in scope — file or
subdirectory rollup alike — contributes its counts, authors, date
range, latest author and hash. -/
def dirAggStep (dir_path : String) (st : DirAggState) (doc : Rec) :
    DirAggState :=
  if doc.path = dir_path then st
  else
    let advances := lastAdvances st.agg.last_commit doc.last_commit
    let innerAdvances :=
      advances && st.latest_commit_date.all
        (fun d => doc.last_commit.any (fun dlc => decide (d < dlc)))
    { agg := { st.agg with
        commits := st.agg.commits + doc.commits,
        insertions := st.agg.insertions + doc.insertions,
        deletions := st.agg.deletions + doc.deletions,
        authors := st.agg.authors ∪ doc.authors,
        first_commit :=
          match doc.first_commit with
          | none => st.agg.first_commit
          | some dfc => optMinStep st.agg.first_commit dfc,
        last_commit :=
          match doc.last_commit with
          | none => st.agg.last_commit
          | some dlc => if advances then some dlc else st.agg.last_commit,
        latest_author :=
          if innerAdvances then doc.latest_author else st.agg.latest_author },
      hashes :=
        match doc.last_commit_hash with
        | some h => st.hashes ++ [h]
        | none => st.hashes,
      latest_commit_date :=
        if innerAdvances then doc.last_commit else st.latest_commit_date }

/-- `aggregate_dir_stats` from `stats_aggregator.py`, applied to the
record list the `TempDB` in `JsonlCache._process_directories_with_progress`
serves (the values of the in-memory `_data` map).  The trailing
`if hashes:` block is `dirSyntheticHash`: no hash contribution leaves
the initial `None`, a single hash is copied, several are combined. -/
def dirSyntheticHash : List String → Option String
  | [] => none
  | [h] => some h
  | hs => some (syntheticDirHash hs)

def aggregate_dir_stats (docs : List Rec) (dir_path : String) : Rec :=
  let inScope := docs.filter (fun doc => inDirScope dir_path doc.path)
  let st0 : DirAggState :=
    { agg := { path := dir_path, is_dir := true },
      hashes := [], latest_commit_date := none }
  let st := inScope.foldl (dirAggStep dir_path) st0
  { st.agg with last_commit_hash := dirSyntheticHash st.hashes }

/-- `get_all_dirs` from `stats_aggregator.py`: every proper ancestor
directory of every given path (`Path(p).parts` prefixes of length
`1 .. len-1`, joined back with the separator); the Python `set` result
is modelled as a deduplicated list. -/
def get_all_dirs (paths : List String) : List String :=
  (paths.flatMap (fun p =>
    let parts := splitOnSlash p.toList
    ((List.range parts.length).drop 1).map
      (fun i => String.mk (List.intercalate ['/'] (parts.take i))))).dedup

/-- The directory ordering key `(len(Path(x).parts), x)` used by both
refresh paths. -/
def dirSortDepth (d : String) : Nat := (splitOnSlash d.toList).length

/-- `a` sorts no later than `b` under
`sort(key=lambda x: (len(Path(x).parts), x), reverse=True)`:
descending lexicographic comparison on `(depth, name)`. -/
def dirSortBefore (a b : String) : Bool :=
  decide (dirSortDepth b < dirSortDepth a) ||
    (decide (dirSortDepth a = dirSortDepth b) && (compare b a).isLE)

/-- Insertion into a sorted list (for the sort model below). -/
def insertSorted (le : String → String → Bool) (x : String) :
    List String → List String
  | [] => [x]
  | y :: ys => if le x y then x :: y :: ys else y :: insertSorted le x ys

/-- Model of Python's `list.sort` with a total key: a simple insertion
sort (the key used by the source is total — it includes the string
itself — so any comparison sort yields the same list). -/
def sortWith (le : String → String → Bool) (l : List String) : List String :=
  l.foldr (insertSorted le) []

/-- The `dirs_to_update` list of `JsonlCache.refresh`: all ancestor
directories of the tracked files, the root excluded, ordered
deepest-first. -/
def dirsToUpdate (files : List String) : List String :=
  sortWith dirSortBefore ((get_all_dirs files).filter (fun d => d ≠ ""))

/-- The in-memory `_data` map and the on-disk JSONL log of a
`JsonlCache`.  `data` is the dict (one record per path, modelled as a
list with pairwise-distinct paths); `disk` is the append-only line
sequence. -/
structure CacheState where
  data : List Rec
  disk : List Rec
deriving DecidableEq

/-- `JsonlCache.get`: point lookup in the in-memory map. -/
def CacheState.lookup (σ : CacheState) (p : String) : Option Rec :=
  σ.data.find? (fun r => r.path == p)

/-- Replace-or-append update of the in-memory record list, keyed by
path (the dict assignment `self._data[entry['path']] = entry`). -/
def upsertData (l : List Rec) (e : Rec) : List Rec :=
  if l.any (fun r => r.path == e.path) then
    l.map (fun r => if r.path == e.path then e else r)
  else l ++ [e]

/-- `JsonlCache.upsert` / `_save_entry`: append the record to the JSONL
log and update the in-memory map. -/
def CacheState.upsert (σ : CacheState) (e : Rec) : CacheState :=
  { data := upsertData σ.data e, disk := σ.disk ++ [e] }

/-- `JsonlCache._remove_entry`: in-memory-only removal; the stale disk
line survives until compaction. -/
def CacheState.removeEntry (σ : CacheState) (p : String) : CacheState :=
  { σ with data := σ.data.filter (fun r => r.path ≠ p) }

/-- `JsonlCache._compact_cache`: rewrite the file from the in-memory
map, one line per distinct path. -/
def CacheState.compact (σ : CacheState) : CacheState :=
  { σ with disk := σ.data }

/-- The `phase: files` progress marker record upserted at the start of
the files phase of `JsonlCache.refresh`. -/
def filesPhaseMarker (total remaining : Nat) (glob_pattern : String) : Rec :=
  { path := REFRESH_PROGRESS_MARKER, phase := some "files",
    total_files := some total, remaining_files := some remaining,
    glob_pattern := some glob_pattern, is_dir := false }

/-- The `phase: directories` progress marker record upserted at the
start of the directories phase of `JsonlCache.refresh`. -/
def dirsPhaseMarker (total : Nat) (glob_pattern : String) : Rec :=
  { path := REFRESH_PROGRESS_MARKER, phase := some "directories",
    total_dirs := some total, glob_pattern := some glob_pattern,
    is_dir := false }

/-- The `__repo_head__` marker record. -/
def headMarker (currentHead : Option String) : Rec :=
  { path := REPO_HEAD_MARKER, last_commit_hash := currentHead,
    is_dir := false }

/-- `JsonlCache._check_files_need_processing`: schedule a file when it
has no cache entry or its recorded `last_commit_hash` differs from the
freshly queried latest hash (`latestHash` stands for the per-path
`git_ops.get_latest_commit_hash` queries). -/
def checkFilesNeedProcessing (σ : CacheState) (files : List String)
    (latestHash : String → Option String) : List String :=
  files.filter (fun f =>
    match σ.lookup f with
    | none => true
    | some cached => cached.last_commit_hash ≠ latestHash f)

/-- The upsert loop of `JsonlCache._process_files_with_progress`
(`for f in files: if f in all_stats: self.upsert(all_stats[f])`):
the body of one iteration. -/
def upsertStep (σ : CacheState) (all_stats : StatsMap) (f : String) :
    CacheState :=
  match all_stats f with
  | some stats => σ.upsert stats
  | none => σ

/-- The upsert loop of `_process_files_with_progress`, with
`KeyboardInterrupt` delivery modelled by the optional counter: `some k`
fires the interrupt after `k` completed iterations (the handler then
re-raises it); `some k` with `k` past the loop's end never fires.
Returns the cache state reached and whether the interrupt was raised
out of the helper. -/
def processFiles (σ : CacheState) (all_stats : StatsMap) :
    List String → Option Nat → CacheState × Bool
  | [], none => (σ, false)
  | [], some 0 => (σ, true)
  | [], some (_ + 1) => (σ, false)
  | _ :: _, some 0 => (σ, true)
  | f :: fs, none => processFiles (upsertStep σ all_stats f) all_stats fs none
  | f :: fs, some (k + 1) =>
      processFiles (upsertStep σ all_stats f) all_stats fs (some k)

/-- The loop of `JsonlCache._process_directories_with_progress`: each
directory's aggregate is recomputed from the current in-memory map
(the `TempDB` view of `self._data`) and upserted; interrupts as in
`processFiles`. -/
def processDirs (σ : CacheState) :
    List String → Option Nat → CacheState × Bool
  | [], none => (σ, false)
  | [], some 0 => (σ, true)
  | [], some (_ + 1) => (σ, false)
  | _ :: _, some 0 => (σ, true)
  | d :: ds, none =>
      processDirs (σ.upsert (aggregate_dir_stats σ.data d)) ds none
  | d :: ds, some (k + 1) =>
      processDirs (σ.upsert (aggregate_dir_stats σ.data d)) ds (some k)

/-- The resume-validation prologue of `JsonlCache.refresh`: with
`resume=True` and a progress marker present, a cached HEAD that no
longer matches the current HEAD invalidates the marker (in memory)
before a fresh refresh. -/
def refreshResumeCheck (σ₀ : CacheState) (currentHead : Option String)
    (resume : Bool) : CacheState :=
  if resume then
    match σ₀.lookup REFRESH_PROGRESS_MARKER with
    | some _ =>
        let cached_head := match σ₀.lookup REPO_HEAD_MARKER with
          | some e => e.last_commit_hash
          | none => none
        if cached_head.isSome ∧ currentHead ≠ cached_head then
          σ₀.removeEntry REFRESH_PROGRESS_MARKER
        else σ₀
    | none => σ₀
  else σ₀

/-- The files phase of `JsonlCache.refresh`: schedule stale files,
and when any are scheduled persist the `files` progress marker, run
the fast aggregation over them and upsert the results
(`_process_files_with_progress`); the second component reports whether
a `KeyboardInterrupt` was re-raised out of the helper. -/
def refreshFilesPhase (σa : CacheState) (allFiles : List String)
    (latestHash : String → Option String) (commits : List Commit)
    (glob_pattern : String) (intrF : Option Nat) : CacheState × Bool :=
  let files_to_process := checkFilesNeedProcessing σa allFiles latestHash
  if files_to_process.isEmpty then (σa, false)
  else
    let σ₁ := σa.upsert
      (filesPhaseMarker allFiles.length files_to_process.length glob_pattern)
    processFiles σ₁
      (fastFromCommits commits files_to_process glob_pattern)
      files_to_process intrF

/-- The directories phase of `JsonlCache.refresh`: when any ancestor
directories exist, persist the `directories` progress marker and
recompute each aggregate deepest-first
(`_process_directories_with_progress`). -/
def refreshDirsPhase (σ₂ : CacheState) (allFiles : List String)
    (glob_pattern : String) (intrD : Option Nat) : CacheState × Bool :=
  let dirs_to_update := dirsToUpdate allFiles
  if dirs_to_update.isEmpty then (σ₂, false)
  else
    processDirs (σ₂.upsert (dirsPhaseMarker dirs_to_update.length glob_pattern))
      dirs_to_update intrD

/-- The completion epilogue of `JsonlCache.refresh`: advance the HEAD
marker (when a HEAD exists), drop the progress marker, compact the
file. -/
def refreshCompletion (σ₄ : CacheState) (currentHead : Option String) :
    CacheState :=
  let σ₅ := match currentHead with
    | some h => σ₄.upsert (headMarker (some h))
    | none => σ₄
  (σ₅.removeEntry REFRESH_PROGRESS_MARKER).compact

/-- `JsonlCache.refresh`.  External queries enter as parameters:
`allFiles` is the tracked-file listing for the glob, `latestHash` the
per-path latest-commit oracle, `commits` the parsed oldest-first bulk
history consumed by the fast strategy, `currentHead` the repository
HEAD (queried on entry by the resume check and again at completion).
`intrF`/`intrD` deliver a `KeyboardInterrupt` during the files or
directories phase; the source catches it there, prints, and returns
normally, so every branch of the model returns `.ok` — a `.error`
result would correspond to the interrupt propagating out of `refresh`,
which the source never does. -/
def refresh (σ₀ : CacheState) (allFiles : List String)
    (latestHash : String → Option String) (commits : List Commit)
    (glob_pattern : String) (currentHead : Option String) (resume : Bool)
    (intrF intrD : Option Nat) : Except Unit CacheState :=
  let σa := refreshResumeCheck σ₀ currentHead resume
  let filesPhase := refreshFilesPhase σa allFiles latestHash commits
    glob_pattern intrF
  if filesPhase.2 then .ok filesPhase.1
  else
    let dirsPhase := refreshDirsPhase filesPhase.1 allFiles glob_pattern intrD
    if dirsPhase.2 then .ok dirsPhase.1
    else .ok (refreshCompletion dirsPhase.1 currentHead)

/-- `JsonlCache.check_and_refresh_stale`.  `gitDiff` is the outcome of
the underlying `git diff --name-only` call; `allTracked` the raw
tracked-file listing; `commits` the bulk history for the fast
strategy.  Returns the new cache state and the boolean the method
returns (`True` = full refresh needed or update performed). -/
def check_and_refresh_stale (σ : CacheState) (currentHead : Option String)
    (gitDiff : Except Unit (List String)) (allTracked : List String)
    (glob_pattern : String) (commits : List Commit) : CacheState × Bool :=
  let cached_head : Option String :=
    match σ.lookup REPO_HEAD_MARKER with
    | some e => e.last_commit_hash
    | none => none
  if cached_head = currentHead then (σ, false)
  else if cached_head = none then (σ, true)
  else
    match get_changed_files gitDiff allTracked currentHead with
    | .error _ => (σ, true)
    | .ok changed_file_list =>
        let files := get_tracked_files allTracked glob_pattern
        let changed_files := changed_file_list.filter
          (fun f => f ∈ files ∧ matchesGlobPattern f glob_pattern = true)
        if changed_files.isEmpty then
          (σ.upsert (headMarker currentHead), false)
        else
          let σ₁ := (processFiles σ
            (fastFromCommits commits changed_files glob_pattern)
            changed_files none).1
          let affected_dirs := get_all_dirs changed_files
          let σ₂ :=
            if affected_dirs.isEmpty then σ₁
            else (processDirs σ₁ (sortWith dirSortBefore affected_dirs) none).1
          (σ₂.upsert (headMarker currentHead), true)

/-! ## Claim-side vocabulary for directory aggregation (C1) -/

/-- The records the claim calls the *descendants* of `d`: paths that
strictly extend `d` (they carry the directory prefix and are not `d`
itself). -/
def descendantRecords (docs : List Rec) (d : String) : List Rec :=
  docs.filter (fun r => inDirScope d r.path && r.path ≠ d)

/-- The *file* descendants of `d`: descendants whose `is_dir` is
false.  This follows the claim's words, for comparison with what
`aggregate_dir_stats` computes. -/
def fileDescendantRecords (docs : List Rec) (d : String) : List Rec :=
  docs.filter (fun r => inDirScope d r.path && r.path ≠ d && !r.is_dir)

/-- Combined minimum of a list of dates, `none` when empty. -/
def minDate? (ds : List Nat) : Option Nat := ds.foldl optMinStep none

/-- Combined maximum of a list of dates, `none` when empty. -/
def maxDate? (ds : List Nat) : Option Nat := ds.foldl optMaxStep none

/-- Union of the author sets of a record list. -/
def unionAuthors (l : List Rec) : Finset String :=
  l.foldl (fun s r => s ∪ r.authors) ∅


/-! ## Lemmas: directory aggregation folds -/

/-- On a pattern without `.` wildcards the scope regex degenerates to
a plain prefix test. -/
theorem reMatchScope_plain (pat text : List Char)
    (h : ∀ p ∈ pat, p ≠ '.') :
    reMatchScope pat text = pat.isPrefixOf text := by
  induction pat generalizing text with
  | nil => cases text <;> rfl
  | cons p ps ih =>
      cases text with
      | nil => rfl
      | cons c cs =>
          have hp : p ≠ '.' := h p (List.mem_cons_self p ps)
          have hrest : ∀ q ∈ ps, q ≠ '.' :=
            fun q hq => h q (List.mem_cons_of_mem p hq)
          simp only [reMatchScope, reCharMatch, if_neg hp, ih cs hrest,
            List.isPrefixOf_cons₂]
          by_cases hpc : p = c <;> simp [hpc]

theorem dirAgg_commits (d : String) (l : List Rec) (st : DirAggState) :
    (l.foldl (dirAggStep d) st).agg.commits
      = st.agg.commits
        + ((l.filter (fun r => r.path ≠ d)).map (fun r => r.commits)).sum := by
  induction l generalizing st with
  | nil => simp
  | cons r rest ih =>
      by_cases hr : r.path = d
      · simp [dirAggStep, hr, ih]
      · simp [List.filter_cons, hr, ih, dirAggStep, Nat.add_assoc]

theorem dirAgg_insertions (d : String) (l : List Rec) (st : DirAggState) :
    (l.foldl (dirAggStep d) st).agg.insertions
      = st.agg.insertions
        + ((l.filter (fun r => r.path ≠ d)).map (fun r => r.insertions)).sum := by
  induction l generalizing st with
  | nil => simp
  | cons r rest ih =>
      by_cases hr : r.path = d
      · simp [dirAggStep, hr, ih]
      · simp [List.filter_cons, hr, ih, dirAggStep, Nat.add_assoc]

theorem dirAgg_deletions (d : String) (l : List Rec) (st : DirAggState) :
    (l.foldl (dirAggStep d) st).agg.deletions
      = st.agg.deletions
        + ((l.filter (fun r => r.path ≠ d)).map (fun r => r.deletions)).sum := by
  induction l generalizing st with
  | nil => simp
  | cons r rest ih =>
      by_cases hr : r.path = d
      · simp [dirAggStep, hr, ih]
      · simp [List.filter_cons, hr, ih, dirAggStep, Nat.add_assoc]

theorem dirAgg_authors (d : String) (l : List Rec) (st : DirAggState) :
    (l.foldl (dirAggStep d) st).agg.authors
      = (l.filter (fun r => r.path ≠ d)).foldl (fun s r => s ∪ r.authors)
          st.agg.authors := by
  induction l generalizing st with
  | nil => simp
  | cons r rest ih =>
      by_cases hr : r.path = d
      · simp [dirAggStep, hr, ih]
      · simp [List.filter_cons, hr, ih, dirAggStep]

theorem dirAgg_first (d : String) (l : List Rec) (st : DirAggState) :
    (l.foldl (dirAggStep d) st).agg.first_commit
      = ((l.filter (fun r => r.path ≠ d)).filterMap
          (fun r => r.first_commit)).foldl optMinStep st.agg.first_commit := by
  induction l generalizing st with
  | nil => simp
  | cons r rest ih =>
      by_cases hr : r.path = d
      · simp [dirAggStep, hr, ih]
      · cases hfc : r.first_commit <;>
          simp [List.filter_cons, hr, ih, dirAggStep, hfc]

theorem dirAgg_last (d : String) (l : List Rec) (st : DirAggState) :
    (l.foldl (dirAggStep d) st).agg.last_commit
      = ((l.filter (fun r => r.path ≠ d)).filterMap
          (fun r => r.last_commit)).foldl optMaxStep st.agg.last_commit := by
  induction l generalizing st with
  | nil => simp
  | cons r rest ih =>
      by_cases hr : r.path = d
      · simp [dirAggStep, hr, ih]
      · cases hlc : r.last_commit with
        | none => simp [List.filter_cons, hr, ih, dirAggStep, hlc]
        | some dlc =>
            rw [List.foldl_cons, ih]
            have hfilter : (r :: rest).filter (fun r => r.path ≠ d)
                = r :: rest.filter (fun r => r.path ≠ d) := by
              simp [List.filter_cons, hr]
            have hstep : (dirAggStep d st r).agg.last_commit
                = optMaxStep st.agg.last_commit dlc := by
              simp only [dirAggStep, if_neg hr, hlc]
              cases halc : st.agg.last_commit <;>
                simp [lastAdvances, optMaxStep, halc]
            rw [hfilter, List.filterMap_cons, hlc]
            simp only [List.foldl_cons, hstep]

/-! ## C1: directory aggregation -/

/-- C1 (counterexample): with a file record `a/b/x` and a subdirectory
rollup record `a/b` both in the cache, `aggregate_dir_stats` for `a`
counts 2 commits while the sum over the *file* descendants of `a` is 1
— subdirectory rollup records do contribute to the sums, contrary to
the claim (the double-counting hazard the spec flags in §9). -/
theorem C1_counterexample :
    (aggregate_dir_stats
      [{ path := "a/b/x", commits := 1, insertions := 10, deletions := 2 },
       { path := "a/b", is_dir := true, commits := 1, insertions := 10,
         deletions := 2 }] "a").commits
      ≠ ((fileDescendantRecords
          [{ path := "a/b/x", commits := 1, insertions := 10, deletions := 2 },
           { path := "a/b", is_dir := true, commits := 1, insertions := 10,
             deletions := 2 }] "a").map (fun r => r.commits)).sum := by
  decide

/-- C1 (amended): for every cache state and every directory path `d`
whose name stays inside the faithfully modelled regex fragment
(literal characters and `.` wildcards — the prefix is spliced into the
`re.match` pattern unescaped), the record computed by
`aggregate_dir_stats` has `commits`, `insertions` and `deletions`
equal to the sums over *all* records the regex scan selects other than
`d` itself (subdirectory rollups included, and a `.` in the directory
name widens the scope to paths differing at that character), `authors`
equal to the union of those records' author sets, and
`first_commit`/`last_commit` equal to the minimum/maximum of their
dates; when the directory name contains no `.` at all, the scanned
records are exactly the strict prefix-descendants of `d`. -/
theorem C1_aggregate_dir_stats_sums_all_descendants
    (docs : List Rec) (d : String)
    (htame : ∀ p ∈ (dirPrefix d).toList, regexTame p = true) :
    ((∀ p ∈ (dirPrefix d).toList, p ≠ '.') →
      descendantRecords docs d
        = docs.filter (fun r =>
            (dirPrefix d).toList.isPrefixOf r.path.toList
              && r.path ≠ d)) ∧
    (aggregate_dir_stats docs d).commits
        = ((descendantRecords docs d).map (fun r => r.commits)).sum ∧
    (aggregate_dir_stats docs d).insertions
        = ((descendantRecords docs d).map (fun r => r.insertions)).sum ∧
    (aggregate_dir_stats docs d).deletions
        = ((descendantRecords docs d).map (fun r => r.deletions)).sum ∧
    (aggregate_dir_stats docs d).authors
        = unionAuthors (descendantRecords docs d) ∧
    (aggregate_dir_stats docs d).first_commit
        = minDate? ((descendantRecords docs d).filterMap
            (fun r => r.first_commit)) ∧
    (aggregate_dir_stats docs d).last_commit
        = maxDate? ((descendantRecords docs d).filterMap
            (fun r => r.last_commit)) := by
  have hdesc : (docs.filter (fun doc => inDirScope d doc.path)).filter
      (fun r => r.path ≠ d) = descendantRecords docs d := by
    rw [List.filter_filter]
    exact List.filter_congr (fun r _ => by
      simp [descendantRecords, Bool.and_comm])
  refine ⟨?_, ?_, ?_, ?_, ?_, ?_, ?_⟩
  · intro hnodot
    unfold descendantRecords
    exact List.filter_congr (fun r _ => by
      rw [inDirScope, reMatchScope_plain _ _ hnodot])
  · show ((docs.filter (fun doc => inDirScope d doc.path)).foldl
        (dirAggStep d) _).agg.commits = _
    rw [dirAgg_commits, hdesc]; simp
  · show ((docs.filter (fun doc => inDirScope d doc.path)).foldl
        (dirAggStep d) _).agg.insertions = _
    rw [dirAgg_insertions, hdesc]; simp
  · show ((docs.filter (fun doc => inDirScope d doc.path)).foldl
        (dirAggStep d) _).agg.deletions = _
    rw [dirAgg_deletions, hdesc]; simp
  · show ((docs.filter (fun doc => inDirScope d doc.path)).foldl
        (dirAggStep d) _).agg.authors = _
    rw [dirAgg_authors, hdesc]; rfl
  · show ((docs.filter (fun doc => inDirScope d doc.path)).foldl
        (dirAggStep d) _).agg.first_commit = _
    rw [dirAgg_first, hdesc]; rfl
  · show ((docs.filter (fun doc => inDirScope d doc.path)).foldl
        (dirAggStep d) _).agg.last_commit = _
    rw [dirAgg_last, hdesc]; rfl

/-- C1 (witness): `C1_aggregate_dir_stats_sums_all_descendants` at the
directory name `a.b` — whose dot the unescaped regex turns into a
wildcard — over a cache holding one record `axb/f`: the record is in
the scan scope although `a.b/` is not a literal prefix of its path,
and the directory sums are taken over it. -/
theorem C1_witness :
    (∀ p ∈ (dirPrefix "a.b").toList, regexTame p = true) ∧
    descendantRecords
        [{ path := "axb/f", commits := 3, insertions := 4,
           deletions := 5 }] "a.b"
      = [{ path := "axb/f", commits := 3, insertions := 4,
           deletions := 5 }] ∧
    (aggregate_dir_stats
        [{ path := "axb/f", commits := 3, insertions := 4,
           deletions := 5 }] "a.b").commits
      = ((descendantRecords
          [{ path := "axb/f", commits := 3, insertions := 4,
             deletions := 5 }] "a.b").map (fun r => r.commits)).sum :=
  ⟨by decide, by decide,
   (C1_aggregate_dir_stats_sums_all_descendants
      [{ path := "axb/f", commits := 3, insertions := 4,
         deletions := 5 }] "a.b" (by decide)).2.1⟩

/-! ## C8: the glob matcher -/

/-- The glob matcher as one Boolean disjunction of its four checks. -/
theorem matchesGlobPattern_eq (fp pat : String) :
    matchesGlobPattern fp pat =
      (decide (pat = "**/*") || pathMatch fp pat ||
        (hasStarStarSlash pat.toList &&
          pathMatch fp (String.mk (dropStarStarSlash pat.toList))) ||
        (startsStarStar pat.toList &&
          (pathMatch fp (String.mk (pat.toList.drop 2)) ||
            pathMatch fp (String.mk ('*' :: pat.toList.drop 2))))) := by
  unfold matchesGlobPattern
  by_cases h : pat = "**/*" <;> simp [h, Bool.or_assoc]

/-- C8: the glob matcher accepts every path under the default pattern
`**/*`; for a pattern containing the segment `**/` it also accepts any
path that base-matches the pattern with that segment removed; for a
pattern starting with `**` it also accepts any path base-matching the
remaining suffix directly or with one wildcard segment prefixed; a
path passing none of the checks is rejected.  The concrete examples of
the claim: `**/*.py` / `**/*.go` match root-level `main.py` /
`main.go` and nested `pkg/util.go`; `**suffix` matches both `suffix`
and `prefix_suffix`. -/
theorem C8_glob_matcher :
    (∀ fp, matchesGlobPattern fp "**/*" = true) ∧
    (∀ fp pat, hasStarStarSlash pat.toList = true →
      pathMatch fp (String.mk (dropStarStarSlash pat.toList)) = true →
      matchesGlobPattern fp pat = true) ∧
    (∀ fp pat, startsStarStar pat.toList = true →
      (pathMatch fp (String.mk (pat.toList.drop 2)) = true ∨
        pathMatch fp (String.mk ('*' :: pat.toList.drop 2)) = true) →
      matchesGlobPattern fp pat = true) ∧
    (∀ fp pat, pat ≠ "**/*" →
      pathMatch fp pat = false →
      (hasStarStarSlash pat.toList = true →
        pathMatch fp (String.mk (dropStarStarSlash pat.toList)) = false) →
      (startsStarStar pat.toList = true →
        pathMatch fp (String.mk (pat.toList.drop 2)) = false ∧
        pathMatch fp (String.mk ('*' :: pat.toList.drop 2)) = false) →
      matchesGlobPattern fp pat = false) ∧
    matchesGlobPattern "main.py" "**/*.py" = true ∧
    matchesGlobPattern "main.go" "**/*.go" = true ∧
    matchesGlobPattern "pkg/util.go" "**/*.go" = true ∧
    matchesGlobPattern "suffix" "**suffix" = true ∧
    matchesGlobPattern "prefix_suffix" "**suffix" = true := by
  refine ⟨?_, ?_, ?_, ?_, by decide, by decide, by decide, by decide, by decide⟩
  · intro fp; simp [matchesGlobPattern]
  · intro fp pat hs hm
    rw [matchesGlobPattern_eq, hs, hm]
    simp
  · intro fp pat hs hm
    rw [matchesGlobPattern_eq, hs]
    rcases hm with hm | hm <;> rw [hm] <;> simp
  · intro fp pat hdef hbase hss hstar
    rw [matchesGlobPattern_eq, hbase]
    cases h1 : hasStarStarSlash pat.toList with
    | true =>
        rw [hss h1]
        cases h2 : startsStarStar pat.toList with
        | true =>
            rcases hstar h2 with ⟨ha, hb⟩
            simp only [String.toList] at ha hb
            simp [hdef, ha, hb]
        | false => simp [hdef]
    | false =>
        cases h2 : startsStarStar pat.toList with
        | true =>
            rcases hstar h2 with ⟨ha, hb⟩
            simp only [String.toList] at ha hb
            simp [hdef, ha, hb]
        | false => simp [hdef]

/-- C8 (witness): the second conjunct of `C8_glob_matcher` applied at
`main.py` against `**/m*.py`, hypotheses discharged by evaluation. -/
theorem C8_witness : matchesGlobPattern "main.py" "**/m*.py" = true :=
  C8_glob_matcher.2.1 "main.py" "**/m*.py" (by decide) (by decide)

/-! ## Lemmas: cache map operations -/

theorem find?_map_replace (l : List Rec) (e : Rec) (p : String)
    (hne : p ≠ e.path) :
    (l.map (fun r => if r.path == e.path then e else r)).find?
        (fun r => r.path == p)
      = l.find? (fun r => r.path == p) := by
  induction l with
  | nil => rfl
  | cons r l ih =>
      rw [List.map_cons]
      by_cases h : r.path = e.path
      · have h1 : (if (r.path == e.path) = true then e else r) = e := by
          simp [h]
        have h2 : (e.path == p) = false := by simp [Ne.symm hne]
        have h3 : (r.path == p) = false := by simp [h, Ne.symm hne]
        rw [h1]
        simp only [List.find?_cons, h2, h3]
        exact ih
      · have h1 : (if (r.path == e.path) = true then e else r) = r := by
          simp [h]
        rw [h1]
        cases h2 : (r.path == p) with
        | true => simp only [List.find?_cons, h2]
        | false =>
            simp only [List.find?_cons, h2]
            exact ih

theorem find?_map_replace_self (l : List Rec) (e : Rec)
    (hany : l.any (fun r => r.path == e.path) = true) :
    (l.map (fun r => if r.path == e.path then e else r)).find?
        (fun r => r.path == e.path)
      = some e := by
  induction l with
  | nil => simp at hany
  | cons r l ih =>
      rw [List.map_cons]
      by_cases h : r.path = e.path
      · have h1 : (if (r.path == e.path) = true then e else r) = e := by
          simp [h]
        rw [h1]
        simp [List.find?_cons]
      · have h1 : (if (r.path == e.path) = true then e else r) = r := by
          simp [h]
        have h2 : (r.path == e.path) = false := by simp [h]
        simp only [List.any_cons, Bool.or_eq_true, beq_iff_eq] at hany
        rcases hany with h' | h'
        · exact absurd h' h
        · rw [h1]
          simp only [List.find?_cons, h2]
          exact ih h'

theorem lookup_upsert (σ : CacheState) (e : Rec) (p : String) :
    (σ.upsert e).lookup p = if p = e.path then some e else σ.lookup p := by
  unfold CacheState.upsert CacheState.lookup upsertData
  by_cases hany : σ.data.any (fun r => r.path == e.path) = true
  · simp only [hany, if_true]
    by_cases hp : p = e.path
    · rw [if_pos hp, hp, find?_map_replace_self σ.data e hany]
    · rw [if_neg hp, find?_map_replace σ.data e p hp]
  · simp only [Bool.not_eq_true] at hany
    simp only [hany, Bool.false_eq_true, if_false, List.find?_append]
    by_cases hp : p = e.path
    · have hnone : σ.data.find? (fun r => r.path == p) = none := by
        rw [List.find?_eq_none]
        intro r hr hbeq
        have : σ.data.any (fun r => r.path == p) = true :=
          List.any_eq_true.mpr ⟨r, hr, hbeq⟩
        rw [hp] at this
        rw [this] at hany
        exact Bool.true_eq_false.mp hany
      rw [if_pos hp, hnone, hp]
      simp [List.find?_cons]
    · have hone : ([e].find? (fun r => r.path == p)) = none := by
        simp [List.find?_cons, Ne.symm hp]
      rw [if_neg hp, hone, Option.or_none]

theorem lookup_removeEntry (σ : CacheState) (q p : String) :
    (σ.removeEntry q).lookup p = if p = q then none else σ.lookup p := by
  unfold CacheState.removeEntry CacheState.lookup
  by_cases hp : p = q
  · rw [if_pos hp, List.find?_eq_none]
    intro r hr hbeq
    have hmem := (List.mem_filter.mp hr).2
    simp only [beq_iff_eq] at hbeq
    simp at hmem
    exact hmem (hbeq.trans hp)
  · rw [if_neg hp]
    induction σ.data with
    | nil => rfl
    | cons r l ih =>
        by_cases hr : r.path = q
        · have h1 : (decide (r.path ≠ q)) = false := by simp [hr]
          have h2 : (r.path == p) = false := by
            simp [hr, Ne.symm hp]
          simp only [List.filter_cons, h1, Bool.false_eq_true, if_false,
            List.find?_cons, h2]
          exact ih
        · have h1 : (decide (r.path ≠ q)) = true := by simp [hr]
          cases h2 : (r.path == p) with
          | true =>
              simp only [List.filter_cons, h1, if_true, List.find?_cons, h2]
          | false =>
              simp only [List.filter_cons, h1, if_true, List.find?_cons, h2]
              exact ih

theorem lookup_compact (σ : CacheState) (p : String) :
    σ.compact.lookup p = σ.lookup p := rfl

theorem paths_upsertData (l : List Rec) (e : Rec)
    (h : (l.map (fun r => r.path)).Nodup) :
    ((upsertData l e).map (fun r => r.path)).Nodup := by
  unfold upsertData
  by_cases hany : l.any (fun r => r.path == e.path) = true
  · simp only [hany, if_true]
    have heq : (l.map (fun r => if r.path == e.path then e else r)).map
        (fun r => r.path) = l.map (fun r => r.path) := by
      rw [List.map_map]
      refine List.map_congr_left (fun r _ => ?_)
      by_cases h' : r.path = e.path <;> simp [h']
    rw [heq]; exact h
  · simp only [Bool.not_eq_true] at hany
    simp only [hany, Bool.false_eq_true, if_false, List.map_append]
    rw [List.nodup_append]
    refine ⟨h, List.nodup_singleton _, ?_⟩
    intro x hx
    simp only [List.mem_map] at hx
    obtain ⟨r, hr, hrp⟩ := hx
    simp only [List.map_cons, List.map_nil, List.mem_singleton]
    intro hxe
    have : l.any (fun r => r.path == e.path) = true :=
      List.any_eq_true.mpr ⟨r, hr, by simp [hrp, hxe]⟩
    rw [this] at hany
    exact Bool.true_eq_false.mp hany

theorem paths_upsert (σ : CacheState) (e : Rec)
    (h : (σ.data.map (fun r => r.path)).Nodup) :
    (((σ.upsert e).data).map (fun r => r.path)).Nodup :=
  paths_upsertData σ.data e h

theorem paths_removeEntry (σ : CacheState) (q : String)
    (h : (σ.data.map (fun r => r.path)).Nodup) :
    (((σ.removeEntry q).data).map (fun r => r.path)).Nodup :=
  h.sublist ((List.filter_sublist _).map _)

/-- The cumulative effect of the upsert loop of the files phase on the
cache state (the interrupt-free unfolding of `processFiles`). -/
def upsertAll (σ : CacheState) (all_stats : StatsMap)
    (fs : List String) : CacheState :=
  fs.foldl (fun σ f => upsertStep σ all_stats f) σ

theorem upsertStep_eq_none (σ : CacheState) (m : StatsMap) (f : String)
    (hm : m f = none) : upsertStep σ m f = σ := by
  unfold upsertStep; rw [hm]

theorem upsertStep_eq_some (σ : CacheState) (m : StatsMap) (f : String)
    (e : Rec) (hm : m f = some e) : upsertStep σ m f = σ.upsert e := by
  unfold upsertStep; rw [hm]

theorem upsertAll_nil (σ : CacheState) (m : StatsMap) :
    upsertAll σ m [] = σ := rfl

theorem upsertAll_cons (σ : CacheState) (m : StatsMap) (f : String)
    (fs : List String) :
    upsertAll σ m (f :: fs) = upsertAll (upsertStep σ m f) m fs := rfl

theorem processFiles_none (σ : CacheState) (m : StatsMap) (fs : List String) :
    processFiles σ m fs none = (upsertAll σ m fs, false) := by
  induction fs generalizing σ with
  | nil => rfl
  | cons f fs ih => rw [processFiles, upsertAll_cons]; exact ih _

theorem processFiles_interrupt (σ : CacheState) (m : StatsMap)
    (fs : List String) (k : Nat) (hk : k ≤ fs.length) :
    processFiles σ m fs (some k) = (upsertAll σ m (fs.take k), true) := by
  induction fs generalizing σ k with
  | nil =>
      have : k = 0 := Nat.le_zero.mp hk
      subst this; rfl
  | cons f fs ih =>
      cases k with
      | zero => rfl
      | succ k =>
          rw [processFiles, List.take_succ_cons, upsertAll_cons]
          exact ih _ k (by simpa using hk)

theorem lookup_upsertAll (σ : CacheState) (m : StatsMap) (fs : List String)
    (p : String) (hpath : ∀ f e, m f = some e → e.path = f) :
    (upsertAll σ m fs).lookup p
      = if p ∈ fs ∧ (m p).isSome then m p else σ.lookup p := by
  induction fs generalizing σ with
  | nil => simp [upsertAll_nil]
  | cons f fs ih =>
      rw [upsertAll_cons]
      by_cases hp : p = f
      · subst hp
        cases hm : m p with
        | none =>
            rw [upsertStep_eq_none σ m p hm, ih σ]
            simp [hm]
        | some e =>
            have hep := hpath p e hm
            rw [upsertStep_eq_some σ m p e hm, ih (σ.upsert e)]
            by_cases hmem : p ∈ fs
            · simp [hmem, hm]
            · simp [hmem, hm, lookup_upsert, hep]
      · cases hm : m f with
        | none =>
            rw [upsertStep_eq_none σ m f hm, ih σ]
            by_cases hmem : p ∈ fs <;> simp [hmem, hp]
        | some e =>
            have hep := hpath f e hm
            rw [upsertStep_eq_some σ m f e hm, ih (σ.upsert e), lookup_upsert]
            have hpe : p ≠ e.path := fun h => hp (h.trans hep)
            by_cases hmem : p ∈ fs <;> simp [hmem, hp, hpe]

theorem paths_upsertAll (σ : CacheState) (m : StatsMap) (fs : List String)
    (h : (σ.data.map (fun r => r.path)).Nodup) :
    (((upsertAll σ m fs).data).map (fun r => r.path)).Nodup := by
  induction fs generalizing σ with
  | nil => exact h
  | cons f fs ih =>
      rw [upsertAll_cons]
      cases hm : m f with
      | none => rw [upsertStep_eq_none σ m f hm]; exact ih σ h
      | some e =>
          rw [upsertStep_eq_some σ m f e hm]
          exact ih _ (paths_upsert σ e h)

theorem processDirs_none_snd (σ : CacheState) (ds : List String) :
    (processDirs σ ds none).2 = false := by
  induction ds generalizing σ with
  | nil => rfl
  | cons d ds ih => rw [processDirs]; exact ih _

theorem paths_processDirs (σ : CacheState) (ds : List String)
    (intr : Option Nat) (h : (σ.data.map (fun r => r.path)).Nodup) :
    (((processDirs σ ds intr).1.data).map (fun r => r.path)).Nodup := by
  induction ds generalizing σ intr with
  | nil =>
      cases intr with
      | none => exact h
      | some k => cases k <;> exact h
  | cons d ds ih =>
      cases intr with
      | none => rw [processDirs]; exact ih _ none (paths_upsert σ _ h)
      | some k =>
          cases k with
          | zero => exact h
          | succ k => rw [processDirs]; exact ih _ _ (paths_upsert σ _ h)

theorem paths_processFiles (σ : CacheState) (m : StatsMap)
    (fs : List String) (intr : Option Nat)
    (h : (σ.data.map (fun r => r.path)).Nodup) :
    (((processFiles σ m fs intr).1.data).map (fun r => r.path)).Nodup := by
  induction fs generalizing σ intr with
  | nil =>
      cases intr with
      | none => exact h
      | some k => cases k <;> exact h
  | cons f fs ih =>
      cases intr with
      | none =>
          rw [processFiles]
          cases hm : m f with
          | none => rw [upsertStep_eq_none σ m f hm]; exact ih _ none h
          | some e =>
              rw [upsertStep_eq_some σ m f e hm]
              exact ih _ none (paths_upsert σ _ h)
      | some k =>
          cases k with
          | zero => exact h
          | succ k =>
              rw [processFiles]
              cases hm : m f with
              | none => rw [upsertStep_eq_none σ m f hm]; exact ih _ _ h
              | some e =>
                  rw [upsertStep_eq_some σ m f e hm]
                  exact ih _ _ (paths_upsert σ _ h)

/-! ## C9, C6, C7: check_and_refresh_stale -/

/-- C9: with no commits in the repository (current HEAD absent) and no
`RepoHeadMarker` in the cache, `check_and_refresh_stale` reports the
repository unchanged and returns `False` — the absent cached head
compares equal to the absent current head before the no-cached-HEAD
branch is reached. -/
theorem C9_empty_repo_empty_cache_no_refresh (σ : CacheState)
    (gitDiff : Except Unit (List String)) (allTracked : List String)
    (glob_pattern : String) (commits : List Commit)
    (hmarker : σ.lookup REPO_HEAD_MARKER = none) :
    check_and_refresh_stale σ none gitDiff allTracked glob_pattern commits
      = (σ, false) := by
  unfold check_and_refresh_stale
  rw [hmarker]
  rfl

/-- C6: when a cached HEAD exists and differs from the current HEAD, a
`GitOperationError` from `get_changed_files` (the one adapter
operation that raises instead of returning an absent result — the
other adapter queries are modelled as total, `Option`-returning
functions) is caught and converted into the return value `True`
("needs full refresh"), with the cache state — every record and the
HEAD marker — left untouched. -/
theorem C6_diff_failure_reports_full_refresh (σ : CacheState) (e : Rec)
    (ch h : String) (allTracked : List String) (glob_pattern : String)
    (commits : List Commit)
    (hcached : σ.lookup REPO_HEAD_MARKER = some e)
    (hhash : e.last_commit_hash = some ch)
    (hne : ch ≠ h) :
    check_and_refresh_stale σ (some h) (.error ()) allTracked glob_pattern
      commits = (σ, true) := by
  unfold check_and_refresh_stale
  rw [hcached]
  have h1 : e.last_commit_hash ≠ some h := by
    rw [hhash]; simpa using hne
  have h2 : e.last_commit_hash ≠ none := by
    rw [hhash]; simp
  rw [if_neg h1, if_neg h2]
  rfl

/-- C7: when the cached HEAD exists, differs from the current HEAD,
and the diff's changed-file list is empty after filtering to currently
tracked files matching the glob, the call returns `False` and the only
visible record it modifies is the `RepoHeadMarker`, set to the current
HEAD; every other path's visible record is exactly as before. -/
theorem C7_no_relevant_changes_updates_only_head (σ : CacheState) (e : Rec)
    (ch : String) (currentHead : Option String)
    (gitDiff : Except Unit (List String))
    (changed_file_list allTracked : List String) (glob_pattern : String)
    (commits : List Commit)
    (hcached : σ.lookup REPO_HEAD_MARKER = some e)
    (hhash : e.last_commit_hash = some ch)
    (hne : some ch ≠ currentHead)
    (hok : get_changed_files gitDiff allTracked currentHead
      = .ok changed_file_list)
    (hempty : changed_file_list.filter
        (fun f => f ∈ get_tracked_files allTracked glob_pattern ∧
          matchesGlobPattern f glob_pattern = true) = []) :
    check_and_refresh_stale σ currentHead gitDiff allTracked glob_pattern
        commits = (σ.upsert (headMarker currentHead), false) ∧
    (check_and_refresh_stale σ currentHead gitDiff allTracked glob_pattern
        commits).1.lookup REPO_HEAD_MARKER
      = some (headMarker currentHead) ∧
    ∀ p, p ≠ REPO_HEAD_MARKER →
      (check_and_refresh_stale σ currentHead gitDiff allTracked glob_pattern
        commits).1.lookup p = σ.lookup p := by
  have hmain : check_and_refresh_stale σ currentHead gitDiff allTracked
      glob_pattern commits = (σ.upsert (headMarker currentHead), false) := by
    unfold check_and_refresh_stale
    rw [hcached]
    have h1 : e.last_commit_hash ≠ currentHead := by
      rw [hhash]; exact hne
    have h2 : e.last_commit_hash ≠ none := by
      rw [hhash]; simp
    rw [if_neg h1, if_neg h2, hok]
    simp only [hempty, List.isEmpty_nil, if_true]
  refine ⟨hmain, ?_, ?_⟩
  · rw [hmain, lookup_upsert]
    simp [headMarker]
  · intro p hp
    rw [hmain, lookup_upsert]
    have : p ≠ (headMarker currentHead).path := by
      simpa [headMarker] using hp
    simp [this]

/-- C9 (witness): `C9_empty_repo_empty_cache_no_refresh` at the empty
cache. -/
theorem C9_witness :
    check_and_refresh_stale ⟨[], []⟩ none (.ok []) []
      DEFAULT_GLOB_PATTERN [] = (⟨[], []⟩, false) :=
  C9_empty_repo_empty_cache_no_refresh ⟨[], []⟩ (.ok []) []
    DEFAULT_GLOB_PATTERN [] (by decide)

/-- C6 (witness): `C6_diff_failure_reports_full_refresh` at a one-record
cache whose head marker differs from the current HEAD, with a failing
diff. -/
theorem C6_witness :
    check_and_refresh_stale
      ⟨[{ path := "__repo_head__", last_commit_hash := some "aaaa",
          is_dir := false }], []⟩
      (some "bbbb") (.error ()) ["x.txt"] DEFAULT_GLOB_PATTERN []
      = (⟨[{ path := "__repo_head__", last_commit_hash := some "aaaa",
              is_dir := false }], []⟩, true) :=
  C6_diff_failure_reports_full_refresh _
    ({ path := "__repo_head__", last_commit_hash := some "aaaa",
       is_dir := false } : Rec)
    "aaaa" "bbbb" ["x.txt"] DEFAULT_GLOB_PATTERN [] (by decide) (by decide)
    (by decide)

/-- C7 (witness): the state-equality conjunct of
`C7_no_relevant_changes_updates_only_head` at a concrete cache where
the only changed file is not tracked. -/
theorem C7_witness :
    check_and_refresh_stale
      ⟨[{ path := "__repo_head__", last_commit_hash := some "aaaa",
          is_dir := false }], []⟩
      (some "bbbb") (.ok ["x.txt"]) [] DEFAULT_GLOB_PATTERN []
      = (CacheState.upsert
          ⟨[{ path := "__repo_head__", last_commit_hash := some "aaaa",
              is_dir := false }], []⟩
          (headMarker (some "bbbb")), false) :=
  (C7_no_relevant_changes_updates_only_head _
    ({ path := "__repo_head__", last_commit_hash := some "aaaa",
       is_dir := false } : Rec)
    "aaaa" (some "bbbb") (.ok ["x.txt"]) ["x.txt"] [] DEFAULT_GLOB_PATTERN []
    (by decide) (by decide) (by decide) (by rfl) (by decide)).1

/-! ## Lemmas: refresh stages -/

theorem refreshFilesPhase_none_snd (σa : CacheState) (allFiles : List String)
    (latestHash : String → Option String) (commits : List Commit)
    (glob_pattern : String) :
    (refreshFilesPhase σa allFiles latestHash commits glob_pattern none).2
      = false := by
  unfold refreshFilesPhase
  by_cases h : (checkFilesNeedProcessing σa allFiles latestHash).isEmpty <;>
    simp [h, processFiles_none]

theorem refreshDirsPhase_none_snd (σ₂ : CacheState) (allFiles : List String)
    (glob_pattern : String) :
    (refreshDirsPhase σ₂ allFiles glob_pattern none).2 = false := by
  unfold refreshDirsPhase
  by_cases h : (dirsToUpdate allFiles).isEmpty <;>
    simp [h, processDirs_none_snd]

theorem paths_refreshResumeCheck (σ₀ : CacheState)
    (currentHead : Option String) (resume : Bool)
    (h : (σ₀.data.map (fun r => r.path)).Nodup) :
    (((refreshResumeCheck σ₀ currentHead resume).data).map
      (fun r => r.path)).Nodup := by
  unfold refreshResumeCheck
  cases resume with
  | false => exact h
  | true =>
      cases σ₀.lookup REFRESH_PROGRESS_MARKER with
      | none => exact h
      | some e =>
          cases hrh : σ₀.lookup REPO_HEAD_MARKER with
          | none =>
              dsimp only
              simpa using h
          | some e2 =>
              dsimp only
              by_cases hc : (e2.last_commit_hash.isSome = true ∧
                  currentHead ≠ e2.last_commit_hash)
              · rw [if_pos hc]; exact paths_removeEntry σ₀ _ h
              · rw [if_neg hc]; exact h

theorem paths_refreshFilesPhase (σa : CacheState) (allFiles : List String)
    (latestHash : String → Option String) (commits : List Commit)
    (glob_pattern : String) (intrF : Option Nat)
    (h : (σa.data.map (fun r => r.path)).Nodup) :
    (((refreshFilesPhase σa allFiles latestHash commits glob_pattern
      intrF).1.data).map (fun r => r.path)).Nodup := by
  unfold refreshFilesPhase
  by_cases he : (checkFilesNeedProcessing σa allFiles latestHash).isEmpty
  · simpa [he] using h
  · simp only [he, Bool.false_eq_true, if_false]
    exact paths_processFiles _ _ _ _ (paths_upsert σa _ h)

theorem paths_refreshDirsPhase (σ₂ : CacheState) (allFiles : List String)
    (glob_pattern : String) (intrD : Option Nat)
    (h : (σ₂.data.map (fun r => r.path)).Nodup) :
    (((refreshDirsPhase σ₂ allFiles glob_pattern intrD).1.data).map
      (fun r => r.path)).Nodup := by
  unfold refreshDirsPhase
  by_cases he : (dirsToUpdate allFiles).isEmpty
  · simpa [he] using h
  · simp only [he, Bool.false_eq_true, if_false]
    exact paths_processDirs _ _ _ (paths_upsert σ₂ _ h)

theorem refreshCompletion_lookup_progress (σ₄ : CacheState)
    (currentHead : Option String) :
    (refreshCompletion σ₄ currentHead).lookup REFRESH_PROGRESS_MARKER
      = none := by
  unfold refreshCompletion
  rw [lookup_compact, lookup_removeEntry]
  simp

theorem refreshCompletion_lookup_head (σ₄ : CacheState) (h : String) :
    (refreshCompletion σ₄ (some h)).lookup REPO_HEAD_MARKER
      = some (headMarker (some h)) := by
  unfold refreshCompletion
  rw [lookup_compact, lookup_removeEntry,
    if_neg (by decide : ¬(REPO_HEAD_MARKER = REFRESH_PROGRESS_MARKER))]
  dsimp only
  rw [lookup_upsert]
  simp [headMarker]

theorem refreshCompletion_disk (σ₄ : CacheState)
    (currentHead : Option String) :
    (refreshCompletion σ₄ currentHead).disk
      = (refreshCompletion σ₄ currentHead).data := rfl

theorem paths_refreshCompletion (σ₄ : CacheState)
    (currentHead : Option String)
    (h : (σ₄.data.map (fun r => r.path)).Nodup) :
    (((refreshCompletion σ₄ currentHead).data).map (fun r => r.path)).Nodup := by
  unfold refreshCompletion
  cases currentHead with
  | none => exact paths_removeEntry _ _ h
  | some hh => exact paths_removeEntry _ _ (paths_upsert σ₄ _ h)

/-! ## C5: refresh completion invariants -/

/-- C5: a `refresh` that runs to completion without interruption
returns normally; on exit the cache holds no record at the reserved
`__refresh_progress__` path, the `RepoHeadMarker` equals the current
HEAD whenever that HEAD exists, and the on-disk file equals the
in-memory map — one line per distinct path (paths pairwise distinct,
given they were distinct on entry), each line that path's latest
record. -/
theorem C5_refresh_completion (σ₀ : CacheState) (allFiles : List String)
    (latestHash : String → Option String) (commits : List Commit)
    (glob_pattern : String) (currentHead : Option String) (resume : Bool)
    (hnd : (σ₀.data.map (fun r => r.path)).Nodup) :
    ∃ σf,
      refresh σ₀ allFiles latestHash commits glob_pattern currentHead resume
          none none = .ok σf ∧
      σf.lookup REFRESH_PROGRESS_MARKER = none ∧
      (∀ h, currentHead = some h →
        σf.lookup REPO_HEAD_MARKER = some (headMarker (some h))) ∧
      σf.disk = σf.data ∧
      (σf.disk.map (fun r => r.path)).Nodup := by
  refine ⟨refreshCompletion
    (refreshDirsPhase
      (refreshFilesPhase (refreshResumeCheck σ₀ currentHead resume) allFiles
        latestHash commits glob_pattern none).1
      allFiles glob_pattern none).1 currentHead, ?_, ?_, ?_, ?_, ?_⟩
  · unfold refresh
    simp [refreshFilesPhase_none_snd, refreshDirsPhase_none_snd]
  · exact refreshCompletion_lookup_progress _ _
  · intro h hh
    subst hh
    exact refreshCompletion_lookup_head _ h
  · exact refreshCompletion_disk _ _
  · rw [refreshCompletion_disk]
    exact paths_refreshCompletion _ _
      (paths_refreshDirsPhase _ _ _ _
        (paths_refreshFilesPhase _ _ _ _ _ _
          (paths_refreshResumeCheck _ _ _ hnd)))

/-- C5 (witness): a completed refresh over a one-file repository from
an empty cache. -/
theorem C5_witness :
    ∃ σf,
      refresh ⟨[], []⟩ ["a.txt"] (fun _ => some "h1")
          [{ hash := "h1", email := "u@x", date := 1, message := "m",
             entries := [{ insertions := 2, deletions := 1,
                           path := "a.txt" }] }]
          DEFAULT_GLOB_PATTERN (some "h1") false none none = .ok σf ∧
      σf.lookup REFRESH_PROGRESS_MARKER = none ∧
      (∀ h, some "h1" = some h →
        σf.lookup REPO_HEAD_MARKER = some (headMarker (some h))) ∧
      σf.disk = σf.data ∧
      (σf.disk.map (fun r => r.path)).Nodup :=
  C5_refresh_completion ⟨[], []⟩ ["a.txt"] (fun _ => some "h1")
    [{ hash := "h1", email := "u@x", date := 1, message := "m",
       entries := [{ insertions := 2, deletions := 1, path := "a.txt" }] }]
    DEFAULT_GLOB_PATTERN (some "h1") false (by decide)

/-! ## Lemmas: pointwise view of the aggregation folds -/

/-- The effect of one commit of the fast parse on one file's record:
every numstat line under the header whose path is the file (and which
passes the working-set/glob filter) applies its update. -/
def commitFast (files : List String) (glob_pattern : String) (c : Commit)
    (p : String) (r : Rec) : Rec :=
  c.entries.foldl
    (fun r e =>
      if e.path = p ∧ fastLineOK files glob_pattern p then
        applyNumstat c e r
      else r)
    r

theorem fastStep_apply (files : List String) (glob_pattern : String)
    (m : StatsMap) (c : Commit) (p : String) :
    (fastStep files glob_pattern m c) p
      = (m p).map (commitFast files glob_pattern c p) := by
  unfold fastStep commitFast
  generalize c.entries = es
  induction es generalizing m with
  | nil => cases hm : m p <;> simp [hm]
  | cons e es ih =>
      simp only [List.foldl_cons]
      by_cases hok : fastLineOK files glob_pattern e.path
      · by_cases hp : e.path = p
        · have hcond : e.path = p ∧ fastLineOK files glob_pattern p :=
            ⟨hp, hp ▸ hok⟩
          rw [if_pos hok, ih]
          have hup : (updateMap m e.path (applyNumstat c e)) p
              = (m p).map (applyNumstat c e) := by
            unfold updateMap
            rw [if_pos hp.symm]
          rw [hup, Option.map_map]
          congr 1
          funext r
          rw [if_pos hcond]
          rfl
        · rw [if_pos hok, ih]
          have hup : (updateMap m e.path (applyNumstat c e)) p = m p := by
            unfold updateMap
            rw [if_neg (fun h => hp h.symm)]
          rw [hup]
          congr 1
          funext r
          rw [if_neg (fun hc => hp hc.1)]
      · rw [if_neg hok, ih]
        congr 1
        funext r
        rw [if_neg (fun hc => hok (by rw [hc.1]; exact hc.2))]

theorem fastAgg_apply (commits : List Commit) (files : List String)
    (glob_pattern : String) (p : String) :
    fastFromCommits commits files glob_pattern p
      = if p ∈ files then
          some (commits.foldl
            (fun r c => commitFast files glob_pattern c p r) (initStats p))
        else none := by
  unfold fastFromCommits
  have h : ∀ (L : List Commit) (m : StatsMap),
      (L.foldl (fastStep files glob_pattern) m) p
        = (m p).map (fun r =>
            L.foldl (fun r c => commitFast files glob_pattern c p r) r) := by
    intro L
    induction L with
    | nil => intro m; cases hm : m p <;> simp [hm]
    | cons c L ih =>
        intro m
        rw [List.foldl_cons, ih, fastStep_apply, Option.map_map]
        cases hm : m p <;> simp [hm]
  rw [h]
  unfold initAllStats
  by_cases hp : p ∈ files <;> simp [hp]

/-- The effect of one commit of the newest-first iteration on one
file's record under the standard strategy. -/
def commitStd (files : List String) (glob_pattern : String) (c : Commit)
    (p : String) (r : Rec) : Rec :=
  if p ∈ stdRelevant files glob_pattern c then applyCommitStd c p r else r

theorem stdRelevant_nodup (files : List String) (glob_pattern : String)
    (c : Commit) : (stdRelevant files glob_pattern c).Nodup := by
  unfold stdRelevant
  by_cases hg : glob_pattern ≠ DEFAULT_GLOB_PATTERN <;>
    simp [hg, List.Nodup.filter, List.nodup_dedup]

theorem foldl_updateMap_nodup (g : String → Rec → Rec) (fs : List String)
    (hnd : fs.Nodup) (m : StatsMap) (p : String) :
    (fs.foldl (fun m f => updateMap m f (g f)) m) p
      = (m p).map (fun r => if p ∈ fs then g p r else r) := by
  induction fs generalizing m with
  | nil => cases hm : m p <;> simp [hm]
  | cons f fs ih =>
      rw [List.foldl_cons, ih (List.Nodup.of_cons hnd)]
      by_cases hp : p = f
      · subst hp
        have hnot : p ∉ fs := (List.nodup_cons.mp hnd).1
        have hup : (updateMap m p (g p)) p = (m p).map (g p) := by
          unfold updateMap; rw [if_pos rfl]
        rw [hup, Option.map_map]
        congr 1
        funext r
        simp only [Function.comp_apply]
        rw [if_neg hnot, if_pos (List.mem_cons_self p fs)]
      · have hup : (updateMap m f (g f)) p = m p := by
          unfold updateMap; rw [if_neg hp]
        rw [hup]
        congr 1
        funext r
        by_cases hmem : p ∈ fs
        · rw [if_pos hmem, if_pos (List.mem_cons_of_mem f hmem)]
        · rw [if_neg hmem,
            if_neg (fun h => (List.mem_cons.mp h).elim hp hmem)]

theorem stdStep_apply (files : List String) (glob_pattern : String)
    (m : StatsMap) (c : Commit) (p : String) :
    (stdStep files glob_pattern m c) p
      = (m p).map (commitStd files glob_pattern c p) := by
  unfold stdStep commitStd
  rw [foldl_updateMap_nodup _ _ (stdRelevant_nodup files glob_pattern c)]

theorem stdAgg_apply (commits : List Commit) (files : List String)
    (glob_pattern : String) (p : String) :
    aggregate_all_file_stats_standard commits files glob_pattern p
      = if p ∈ files then
          some (commits.foldl
            (fun r c => commitStd files glob_pattern c p r) (initStats p))
        else none := by
  unfold aggregate_all_file_stats_standard
  have h : ∀ (L : List Commit) (m : StatsMap),
      (L.foldl (stdStep files glob_pattern) m) p
        = (m p).map (fun r =>
            L.foldl (fun r c => commitStd files glob_pattern c p r) r) := by
    intro L
    induction L with
    | nil => intro m; cases hm : m p <;> simp [hm]
    | cons c L ih =>
        intro m
        rw [List.foldl_cons, ih, stdStep_apply, Option.map_map]
        cases hm : m p <;> simp [hm]
  rw [h]
  unfold initAllStats
  by_cases hp : p ∈ files <;> simp [hp]

theorem applyNumstat_path (c : Commit) (e : NumstatEntry) (r : Rec) :
    (applyNumstat c e r).path = r.path := rfl

theorem commitFast_path (files : List String) (glob_pattern : String)
    (c : Commit) (p : String) (r : Rec) :
    (commitFast files glob_pattern c p r).path = r.path := by
  unfold commitFast
  generalize c.entries = es
  induction es generalizing r with
  | nil => rfl
  | cons e es ih =>
      rw [List.foldl_cons]
      by_cases h : e.path = p ∧ fastLineOK files glob_pattern p
      · rw [if_pos h, ih, applyNumstat_path]
      · rw [if_neg h, ih]

theorem fastAgg_path (commits : List Commit) (files : List String)
    (glob_pattern : String) (p : String) (e : Rec)
    (hm : fastFromCommits commits files glob_pattern p
      = some e) : e.path = p := by
  rw [fastAgg_apply] at hm
  by_cases hp : p ∈ files
  · rw [if_pos hp] at hm
    obtain rfl := Option.some_injective _ hm.symm
    have : ∀ (L : List Commit) (r : Rec),
        (L.foldl (fun r c => commitFast files glob_pattern c p r) r).path
          = r.path := by
      intro L
      induction L with
      | nil => intro r; rfl
      | cons c L ih =>
          intro r
          rw [List.foldl_cons, ih, commitFast_path]
    rw [this]
    rfl
  · rw [if_neg hp] at hm
    exact absurd hm (by simp)

theorem commitFast_id (files : List String) (glob_pattern : String)
    (c : Commit) (p : String) (r : Rec)
    (h : ∀ e ∈ c.entries, e.path ≠ p) :
    commitFast files glob_pattern c p r = r := by
  unfold commitFast
  have key : ∀ (es : List NumstatEntry), (∀ e ∈ es, e.path ≠ p) →
      es.foldl
        (fun r e =>
          if e.path = p ∧ fastLineOK files glob_pattern p then
            applyNumstat c e r
          else r) r = r := by
    intro es
    induction es with
    | nil => intro _; rfl
    | cons e es ih =>
        intro hes
        rw [List.foldl_cons,
          if_neg (fun hc => hes e (List.mem_cons_self e es) hc.1)]
        exact ih (fun e' he' => hes e' (List.mem_cons_of_mem e he'))
  exact key c.entries h

theorem commitStd_id (files : List String) (glob_pattern : String)
    (c : Commit) (p : String) (r : Rec)
    (h : ∀ e ∈ c.entries, e.path ≠ p) :
    commitStd files glob_pattern c p r = r := by
  unfold commitStd
  rw [if_neg]
  intro hmem
  have hp : p ∈ (c.entries.map (fun e => e.path)).dedup := by
    unfold stdRelevant at hmem
    by_cases hg : glob_pattern ≠ DEFAULT_GLOB_PATTERN
    · rw [if_pos hg] at hmem
      exact (List.mem_filter.mp (List.mem_filter.mp hmem).1).1
    · rw [if_neg hg] at hmem
      exact (List.mem_filter.mp hmem).1
  rw [List.mem_dedup, List.mem_map] at hp
  obtain ⟨e, he, hep⟩ := hp
  exact h e he hep

theorem filesPhaseMarker_path (total remaining : Nat)
    (glob_pattern : String) :
    (filesPhaseMarker total remaining glob_pattern).path
      = REFRESH_PROGRESS_MARKER := rfl

/-! ## C4: interruption during the files phase -/

/-- C4 (counterexample): at a concrete one-file repository with the
interrupt firing during the files phase, `_process_files_with_progress`
does re-raise the `KeyboardInterrupt` (first conjunct), but
`JsonlCache.refresh` catches it and returns normally — its result is a
normal return, not a propagated interrupt — so the claim's final
conjunct ("re-raised out of JsonlCache.refresh to its caller") fails. -/
theorem C4_counterexample :
    (processFiles
        (CacheState.upsert ⟨[], []⟩
          (filesPhaseMarker 1 1 DEFAULT_GLOB_PATTERN))
        (fastFromCommits [] ["a.txt"] DEFAULT_GLOB_PATTERN)
        ["a.txt"] (some 0)).2 = true ∧
    (refresh ⟨[], []⟩ ["a.txt"] (fun _ => none) [] DEFAULT_GLOB_PATTERN
        (some "h1") false (some 0) none).isOk = true := by
  decide

/-- C4 (amended): an interruption after `k` upserts of the files phase
leaves every record already upserted in that phase intact (each
scheduled file processed so far resolves to its freshly aggregated
record), leaves the files-phase `RefreshProgressMarker` in place, does
not advance the `RepoHeadMarker`; the `KeyboardInterrupt` is re-raised
out of `_process_files_with_progress` but caught inside
`JsonlCache.refresh`, which returns normally (early, skipping the
directories phase, head update, marker removal and compaction). -/
theorem C4_files_phase_interrupt (σ₀ : CacheState) (allFiles : List String)
    (latestHash : String → Option String) (commits : List Commit)
    (glob_pattern : String) (currentHead : Option String)
    (intrD : Option Nat) (k : Nat)
    (hk : k ≤ (checkFilesNeedProcessing σ₀ allFiles latestHash).length)
    (hne : (checkFilesNeedProcessing σ₀ allFiles latestHash).isEmpty
      = false)
    (hrpm : REFRESH_PROGRESS_MARKER ∉ allFiles)
    (hrhm : REPO_HEAD_MARKER ∉ allFiles) :
    (processFiles
        (σ₀.upsert (filesPhaseMarker allFiles.length
          (checkFilesNeedProcessing σ₀ allFiles latestHash).length
          glob_pattern))
        (fastFromCommits commits
          (checkFilesNeedProcessing σ₀ allFiles latestHash) glob_pattern)
        (checkFilesNeedProcessing σ₀ allFiles latestHash) (some k)).2
      = true ∧
    refresh σ₀ allFiles latestHash commits glob_pattern currentHead false
        (some k) intrD
      = .ok (upsertAll
          (σ₀.upsert (filesPhaseMarker allFiles.length
            (checkFilesNeedProcessing σ₀ allFiles latestHash).length
            glob_pattern))
          (fastFromCommits commits
            (checkFilesNeedProcessing σ₀ allFiles latestHash) glob_pattern)
          ((checkFilesNeedProcessing σ₀ allFiles latestHash).take k)) ∧
    (upsertAll
        (σ₀.upsert (filesPhaseMarker allFiles.length
          (checkFilesNeedProcessing σ₀ allFiles latestHash).length
          glob_pattern))
        (fastFromCommits commits
          (checkFilesNeedProcessing σ₀ allFiles latestHash) glob_pattern)
        ((checkFilesNeedProcessing σ₀ allFiles latestHash).take k)).lookup
        REFRESH_PROGRESS_MARKER
      = some (filesPhaseMarker allFiles.length
          (checkFilesNeedProcessing σ₀ allFiles latestHash).length
          glob_pattern) ∧
    (upsertAll
        (σ₀.upsert (filesPhaseMarker allFiles.length
          (checkFilesNeedProcessing σ₀ allFiles latestHash).length
          glob_pattern))
        (fastFromCommits commits
          (checkFilesNeedProcessing σ₀ allFiles latestHash) glob_pattern)
        ((checkFilesNeedProcessing σ₀ allFiles latestHash).take k)).lookup
        REPO_HEAD_MARKER
      = σ₀.lookup REPO_HEAD_MARKER ∧
    ∀ f ∈ (checkFilesNeedProcessing σ₀ allFiles latestHash).take k,
      (upsertAll
          (σ₀.upsert (filesPhaseMarker allFiles.length
            (checkFilesNeedProcessing σ₀ allFiles latestHash).length
            glob_pattern))
          (fastFromCommits commits
            (checkFilesNeedProcessing σ₀ allFiles latestHash) glob_pattern)
          ((checkFilesNeedProcessing σ₀ allFiles latestHash).take k)).lookup f
        = fastFromCommits commits
            (checkFilesNeedProcessing σ₀ allFiles latestHash) glob_pattern
            f := by
  have hsub : ∀ x ∈ checkFilesNeedProcessing σ₀ allFiles latestHash,
      x ∈ allFiles := fun x hx => List.mem_of_mem_filter hx
  have hpath : ∀ f e,
      fastFromCommits commits
        (checkFilesNeedProcessing σ₀ allFiles latestHash) glob_pattern f
        = some e → e.path = f :=
    fun f e h => fastAgg_path _ _ _ _ _ h
  have hproc := processFiles_interrupt
    (σ₀.upsert (filesPhaseMarker allFiles.length
      (checkFilesNeedProcessing σ₀ allFiles latestHash).length glob_pattern))
    (fastFromCommits commits
      (checkFilesNeedProcessing σ₀ allFiles latestHash) glob_pattern)
    (checkFilesNeedProcessing σ₀ allFiles latestHash) k hk
  have htake : ∀ x ∈ (checkFilesNeedProcessing σ₀ allFiles latestHash).take k,
      x ∈ checkFilesNeedProcessing σ₀ allFiles latestHash :=
    fun x hx => List.take_subset k _ hx
  refine ⟨by rw [hproc], ?_, ?_, ?_, ?_⟩
  · unfold refresh
    have hresume : refreshResumeCheck σ₀ currentHead false = σ₀ := rfl
    rw [hresume]
    have hfp : refreshFilesPhase σ₀ allFiles latestHash commits glob_pattern
        (some k)
        = (upsertAll
            (σ₀.upsert (filesPhaseMarker allFiles.length
              (checkFilesNeedProcessing σ₀ allFiles latestHash).length
              glob_pattern))
            (fastFromCommits commits
              (checkFilesNeedProcessing σ₀ allFiles latestHash) glob_pattern)
            ((checkFilesNeedProcessing σ₀ allFiles latestHash).take k),
          true) := by
      unfold refreshFilesPhase
      simp only [hne, Bool.false_eq_true, if_false]
      exact hproc
    simp only [hfp]
    rfl
  · rw [lookup_upsertAll _ _ _ _ hpath,
      if_neg (fun hc => hrpm (hsub _ (htake _ hc.1))), lookup_upsert,
      filesPhaseMarker_path, if_pos rfl]
  · rw [lookup_upsertAll _ _ _ _ hpath,
      if_neg (fun hc => hrhm (hsub _ (htake _ hc.1))), lookup_upsert,
      filesPhaseMarker_path,
      if_neg (by decide : ¬(REPO_HEAD_MARKER = REFRESH_PROGRESS_MARKER))]
  · intro f hf
    rw [lookup_upsertAll _ _ _ _ hpath]
    have hfm : (fastFromCommits commits
        (checkFilesNeedProcessing σ₀ allFiles latestHash) glob_pattern
        f).isSome = true := by
      rw [fastAgg_apply, if_pos (htake _ hf)]
      rfl
    rw [if_pos ⟨hf, hfm⟩]

/-- C4 (witness): the head-marker conjunct of
`C4_files_phase_interrupt` at a one-file repository interrupted after
its single upsert. -/
theorem C4_witness :
    (upsertAll
        (CacheState.upsert ⟨[], []⟩
          (filesPhaseMarker (List.length ["a.txt"])
            (List.length (checkFilesNeedProcessing ⟨[], []⟩ ["a.txt"]
              (fun _ => none)))
            DEFAULT_GLOB_PATTERN))
        (fastFromCommits []
          (checkFilesNeedProcessing ⟨[], []⟩ ["a.txt"] (fun _ => none))
          DEFAULT_GLOB_PATTERN)
        ((checkFilesNeedProcessing ⟨[], []⟩ ["a.txt"]
          (fun _ => none)).take 1)).lookup REPO_HEAD_MARKER
      = CacheState.lookup ⟨[], []⟩ REPO_HEAD_MARKER :=
  (C4_files_phase_interrupt ⟨[], []⟩ ["a.txt"] (fun _ => none) []
    DEFAULT_GLOB_PATTERN (some "h1") none 1 (by decide) (by decide)
    (by decide) (by decide)).2.2.2.1

/-! ## Lemmas: most-recent-touch bookkeeping of the fast strategy -/

/-- The four header-derived fields the fast parser overwrites together
when `last_commit` strictly advances. -/
def lastQuad (r : Rec) :
    Option Nat × Option String × Option String × Option String :=
  (r.last_commit, r.last_commit_hash, r.latest_author,
    r.last_commit_message)

/-- Those fields as taken from a commit header. -/
def quadOf (c : Commit) :
    Option Nat × Option String × Option String × Option String :=
  (some c.date, some c.hash, some c.email, some (c.message.take 50))

/-- Does this commit touch file `p` in the fast parse — some numstat
line carries `p`, and `p` passes the working-set/glob filter? -/
def touchesFast (files : List String) (glob_pattern : String) (c : Commit)
    (p : String) : Bool :=
  c.entries.any (fun e => e.path == p) &&
    decide (fastLineOK files glob_pattern p)

/-- Does this commit's date strictly advance the record's
`last_commit` (the guard under which the fast parser overwrites the
metadata quadruple)? -/
def beatsLast (r : Rec) (c : Commit) : Bool :=
  match r.last_commit with
  | none => true
  | some lc => decide (lc < c.date)

/-- The commit the fast parse's *final* `last_commit` update for `p`
comes from: the first commit, in oldest-first order, whose date
strictly exceeds every earlier touching commit's date — later touching
commits with equal dates never overwrite. -/
def lastTouchStep (files : List String) (glob_pattern : String)
    (p : String) (acc : Option Commit) (c : Commit) : Option Commit :=
  if touchesFast files glob_pattern c p then
    match acc with
    | none => some c
    | some a => if a.date < c.date then some c else acc
  else acc

def lastTouchCommit (files : List String) (glob_pattern : String)
    (p : String) (commits : List Commit) : Option Commit :=
  commits.foldl (lastTouchStep files glob_pattern p) none

theorem applyNumstat_last (c : Commit) (e : NumstatEntry) (r : Rec) :
    lastQuad (applyNumstat c e r)
      = if beatsLast r c then quadOf c else lastQuad r := by
  unfold applyNumstat beatsLast lastQuad quadOf
  dsimp only
  cases hb : (match r.last_commit with
    | none => true
    | some lc => decide (lc < c.date)) <;> simp [hb]

theorem applyNumstat_last_commit (c : Commit) (e : NumstatEntry) (r : Rec) :
    (applyNumstat c e r).last_commit
      = if beatsLast r c then some c.date else r.last_commit := rfl

theorem commitFast_last (files : List String) (glob_pattern : String)
    (c : Commit) (p : String) (r : Rec) :
    lastQuad (commitFast files glob_pattern c p r)
      = if touchesFast files glob_pattern c p && beatsLast r c then quadOf c
        else lastQuad r := by
  unfold commitFast touchesFast
  generalize c.entries = es
  by_cases hok : fastLineOK files glob_pattern p
  · induction es generalizing r with
    | nil => simp
    | cons e es ih =>
        by_cases hep : e.path = p
        · rw [List.foldl_cons, if_pos ⟨hep, hok⟩]
          cases hb : beatsLast r c with
          | true =>
              have h1 := applyNumstat_last c e r
              rw [hb, if_pos rfl] at h1
              have h2 := applyNumstat_last_commit c e r
              rw [hb, if_pos rfl] at h2
              have hb' : beatsLast (applyNumstat c e r) c = false := by
                unfold beatsLast
                rw [h2]
                simp
              rw [ih]
              simp [hb', h1, hep, hb, hok]
          | false =>
              have h1 := applyNumstat_last c e r
              rw [hb] at h1
              simp only [Bool.false_eq_true, if_false] at h1
              have h2 := applyNumstat_last_commit c e r
              rw [hb] at h2
              simp only [Bool.false_eq_true, if_false] at h2
              have hb' : beatsLast (applyNumstat c e r) c = false := by
                unfold beatsLast
                rw [h2]
                unfold beatsLast at hb
                exact hb
              rw [ih]
              simp [hb', h1, hb]
        · rw [List.foldl_cons, if_neg (fun hc => hep hc.1)]
          rw [ih]
          have hbeq : ((e.path == p) : Bool) = false := by simp [hep]
          simp [hbeq]
  · have hstep : ∀ (es : List NumstatEntry) (r : Rec),
        (es.foldl
          (fun r e =>
            if e.path = p ∧ fastLineOK files glob_pattern p then
              applyNumstat c e r
            else r) r) = r := by
      intro es
      induction es with
      | nil => intro r; rfl
      | cons e es ih =>
          intro r
          rw [List.foldl_cons, if_neg (fun hc => hok hc.2)]
          exact ih r
    rw [hstep]
    simp [hok]

/-- The metadata quadruple carried by an optional commit. -/
def quadOfOpt (acc : Option Commit) :
    Option Nat × Option String × Option String × Option String :=
  (acc.map (fun c => c.date), acc.map (fun c => c.hash),
    acc.map (fun c => c.email), acc.map (fun c => c.message.take 50))

theorem fastFold_last (files : List String) (glob_pattern : String)
    (p : String) (L : List Commit) :
    ∀ (r : Rec) (acc : Option Commit),
      lastQuad r = quadOfOpt acc →
      lastQuad (L.foldl
          (fun r c => commitFast files glob_pattern c p r) r)
        = quadOfOpt (L.foldl (lastTouchStep files glob_pattern p) acc) := by
  induction L with
  | nil => intro r acc hq; exact hq
  | cons c L ih =>
      intro r acc hq
      rw [List.foldl_cons, List.foldl_cons]
      refine ih _ _ ?_
      have hlast : r.last_commit = acc.map (fun c => c.date) :=
        congrArg Prod.fst hq
      rw [commitFast_last]
      unfold lastTouchStep
      cases ht : touchesFast files glob_pattern c p with
      | false => simpa using hq
      | true =>
          cases acc with
          | none =>
              have hb : beatsLast r c = true := by
                unfold beatsLast
                rw [hlast]
                rfl
              simp [hb, quadOf, quadOfOpt]
          | some a =>
              have hb : beatsLast r c = decide (a.date < c.date) := by
                unfold beatsLast
                rw [hlast]
                rfl
              by_cases hd : a.date < c.date
              · simp [hb, hd, quadOf, quadOfOpt]
              · simp [hb, hd, hq]

theorem lastTouch_ge (files : List String) (glob_pattern p : String) :
    ∀ (L : List Commit) (a c : Commit),
      L.foldl (lastTouchStep files glob_pattern p) (some a) = some c →
      a.date ≤ c.date := by
  intro L
  induction L with
  | nil =>
      intro a c h
      obtain rfl := Option.some_injective _ h
      exact le_refl _
  | cons d L ih =>
      intro a c h
      rw [List.foldl_cons] at h
      unfold lastTouchStep at h
      by_cases ht : touchesFast files glob_pattern d p = true
      · rw [if_pos ht] at h
        by_cases hd : a.date < d.date
        · simp only [hd, if_pos] at h
          exact le_trans (le_of_lt hd) (ih d c h)
        · simp only [hd, if_neg, if_false] at h
          exact ih a c h
      · rw [if_neg ht] at h
        exact ih a c h

theorem lastTouch_mem (files : List String) (glob_pattern p : String) :
    ∀ (L : List Commit) (acc : Option Commit) (c : Commit),
      L.foldl (lastTouchStep files glob_pattern p) acc = some c →
      acc = some c ∨
        (c ∈ L ∧ touchesFast files glob_pattern c p = true) := by
  intro L
  induction L with
  | nil => intro acc c h; exact Or.inl h
  | cons d L ih =>
      intro acc c h
      rw [List.foldl_cons] at h
      rcases ih _ c h with hstep | ⟨hmem, ht⟩
      · unfold lastTouchStep at hstep
        by_cases ht : touchesFast files glob_pattern d p = true
        · rw [if_pos ht] at hstep
          cases acc with
          | none =>
              obtain rfl := Option.some_injective _ hstep
              exact Or.inr ⟨List.mem_cons_self _ _, ht⟩
          | some a =>
              by_cases hd : a.date < d.date
              · simp only [hd, if_pos] at hstep
                obtain rfl := Option.some_injective _ hstep
                exact Or.inr ⟨List.mem_cons_self _ _, ht⟩
              · simp only [hd, if_neg, if_false] at hstep
                exact Or.inl hstep
        · rw [if_neg ht] at hstep
          exact Or.inl hstep
      · exact Or.inr ⟨List.mem_cons_of_mem d hmem, ht⟩

theorem lastTouch_max (files : List String) (glob_pattern p : String) :
    ∀ (L : List Commit) (acc : Option Commit) (c : Commit),
      L.foldl (lastTouchStep files glob_pattern p) acc = some c →
      ∀ d ∈ L, touchesFast files glob_pattern d p = true →
        d.date ≤ c.date := by
  intro L
  induction L with
  | nil => intro acc c _ d hd; exact absurd hd (List.not_mem_nil d)
  | cons d' L ih =>
      intro acc c h d hd ht
      rw [List.foldl_cons] at h
      rcases List.mem_cons.mp hd with rfl | hmem
      · unfold lastTouchStep at h
        rw [if_pos ht] at h
        cases acc with
        | none => exact lastTouch_ge files glob_pattern p L d c h
        | some a =>
            by_cases hlt : a.date < d.date
            · simp only [hlt, if_pos] at h
              exact lastTouch_ge files glob_pattern p L d c h
            · simp only [hlt, if_neg, if_false] at h
              exact le_trans (le_of_not_lt hlt)
                (lastTouch_ge files glob_pattern p L a c h)
      · exact ih _ c h d hmem ht

/-! ## Lemmas: the order-insensitive core of both strategies -/

/-- The fields of a per-file record whose final value the two
aggregation strategies must agree on (plus the date range, which is
also order-insensitive). -/
structure CoreStats where
  commits : Nat
  insertions : Nat
  deletions : Nat
  authors : Finset String
  first_commit : Option Nat
  last_commit : Option Nat
deriving DecidableEq

def core (r : Rec) : CoreStats :=
  ⟨r.commits, r.insertions, r.deletions, r.authors, r.first_commit,
    r.last_commit⟩

/-- The common per-commit effect of either strategy on the core fields
of one file's record. -/
def coreTouch (files : List String) (glob_pattern : String) (c : Commit)
    (p : String) (cs : CoreStats) : CoreStats :=
  match c.entries.find? (fun e => e.path == p) with
  | none => cs
  | some e =>
      if fastLineOK files glob_pattern p then
        { commits := cs.commits + 1,
          insertions := cs.insertions + e.insertions,
          deletions := cs.deletions + e.deletions,
          authors := insert c.email cs.authors,
          first_commit := optMinStep cs.first_commit c.date,
          last_commit := optMaxStep cs.last_commit c.date }
      else cs

theorem optMinStep_comm (a : Option Nat) (x y : Nat) :
    optMinStep (optMinStep a x) y = optMinStep (optMinStep a y) x := by
  cases a with
  | none =>
      by_cases h3 : x < y <;> by_cases h4 : y < x <;>
        simp [optMinStep, h3, h4] <;> omega
  | some z =>
      by_cases h1 : x < z <;> by_cases h2 : y < z <;>
        by_cases h3 : x < y <;> by_cases h4 : y < x <;>
        simp [optMinStep, h1, h2, h3, h4] <;> omega

theorem optMaxStep_comm (a : Option Nat) (x y : Nat) :
    optMaxStep (optMaxStep a x) y = optMaxStep (optMaxStep a y) x := by
  cases a with
  | none =>
      by_cases h3 : x < y <;> by_cases h4 : y < x <;>
        simp [optMaxStep, h3, h4] <;> omega
  | some z =>
      by_cases h1 : z < x <;> by_cases h2 : z < y <;>
        by_cases h3 : x < y <;> by_cases h4 : y < x <;>
        simp [optMaxStep, h1, h2, h3, h4] <;> omega

theorem coreTouch_comm (files : List String) (glob_pattern : String)
    (c d : Commit) (p : String) (cs : CoreStats) :
    coreTouch files glob_pattern c p (coreTouch files glob_pattern d p cs)
      = coreTouch files glob_pattern d p
          (coreTouch files glob_pattern c p cs) := by
  unfold coreTouch
  cases hc : c.entries.find? (fun e => e.path == p) with
  | none => cases hd : d.entries.find? (fun e => e.path == p) <;> rfl
  | some ec =>
      cases hd : d.entries.find? (fun e => e.path == p) with
      | none => rfl
      | some ed =>
          dsimp only
          by_cases hok : fastLineOK files glob_pattern p
          · rw [if_pos hok, if_pos hok, if_pos hok, if_pos hok]
            dsimp only
            congr 1 <;>
              first
                | omega
                | exact Finset.Insert.comm _ _ _
                | exact optMinStep_comm _ _ _
                | exact optMaxStep_comm _ _ _
          · rw [if_neg hok, if_neg hok, if_neg hok, if_neg hok]

theorem core_applyNumstat (c : Commit) (e : NumstatEntry) (r : Rec) :
    core (applyNumstat c e r)
      = { commits := r.commits + 1,
          insertions := r.insertions + e.insertions,
          deletions := r.deletions + e.deletions,
          authors := insert c.email r.authors,
          first_commit := optMinStep r.first_commit c.date,
          last_commit := optMaxStep r.last_commit c.date } := by
  unfold core applyNumstat optMaxStep
  cases hl : r.last_commit <;> dsimp only <;> simp [hl]

theorem core_commitFast (files : List String) (glob_pattern : String)
    (c : Commit) (p : String) (r : Rec)
    (hnd : (c.entries.map (fun e => e.path)).Nodup) :
    core (commitFast files glob_pattern c p r)
      = coreTouch files glob_pattern c p (core r) := by
  unfold commitFast coreTouch
  have hskip : ∀ (es : List NumstatEntry) (r : Rec),
      (∀ e' ∈ es, ¬(e'.path = p ∧ fastLineOK files glob_pattern p)) →
      es.foldl
        (fun r e =>
          if e.path = p ∧ fastLineOK files glob_pattern p then
            applyNumstat c e r
          else r) r = r := by
    intro es
    induction es with
    | nil => intro r _; rfl
    | cons e' es ih =>
        intro r hno
        rw [List.foldl_cons, if_neg (hno e' (List.mem_cons_self e' es))]
        exact ih r (fun x hx => hno x (List.mem_cons_of_mem e' hx))
  by_cases hok : fastLineOK files glob_pattern p
  · cases hf : c.entries.find? (fun e => e.path == p) with
    | none =>
        dsimp only
        have hnone : ∀ e ∈ c.entries, e.path ≠ p := by
          intro e he hep
          have := List.find?_eq_none.mp hf e he
          simp [hep] at this
        rw [hskip c.entries r (fun e' he' hc => hnone e' he' hc.1)]
    | some e =>
        dsimp only
        have hsingle : ∀ (es : List NumstatEntry) (r : Rec),
            (es.map (fun e => e.path)).Nodup →
            es.find? (fun e => e.path == p) = some e →
            es.foldl
              (fun r e =>
                if e.path = p ∧ fastLineOK files glob_pattern p then
                  applyNumstat c e r
                else r) r = applyNumstat c e r := by
          intro es
          induction es with
          | nil => intro r _ hf'; simp at hf'
          | cons e' es ih =>
              intro r hnd' hf'
              by_cases hep : e'.path = p
              · rw [List.find?_cons_of_pos _ (by simp [hep])] at hf'
                obtain rfl := Option.some_injective _ hf'
                rw [List.foldl_cons, if_pos ⟨hep, hok⟩]
                refine hskip es (applyNumstat c e' r) ?_
                intro x hx hc
                rw [List.map_cons] at hnd'
                refine (List.nodup_cons.mp hnd').1 ?_
                rw [hep, ← hc.1]
                exact List.mem_map.mpr ⟨x, hx, rfl⟩
              · rw [List.find?_cons_of_neg _ (by simp [hep])] at hf'
                rw [List.foldl_cons, if_neg (fun hc => hep hc.1)]
                rw [List.map_cons] at hnd'
                exact ih r (List.nodup_cons.mp hnd').2 hf'
        rw [hsingle c.entries r hnd hf, if_pos hok, core_applyNumstat]
        rfl
  · rw [hskip c.entries r (fun e' he' hc => hok hc.2)]
    cases hf : c.entries.find? (fun e => e.path == p) with
    | none => rfl
    | some e =>
        dsimp only
        rw [if_neg hok]

theorem stdRelevant_mem (files : List String) (glob_pattern : String)
    (c : Commit) (p : String) :
    p ∈ stdRelevant files glob_pattern c
      ↔ touchesFast files glob_pattern c p = true := by
  unfold stdRelevant touchesFast fastLineOK
  by_cases hg : glob_pattern ≠ DEFAULT_GLOB_PATTERN
  · rw [if_pos hg]
    simp only [List.mem_filter, List.mem_dedup, List.mem_map,
      Bool.and_eq_true, List.any_eq_true, beq_iff_eq, decide_eq_true_eq]
    constructor
    · rintro ⟨⟨⟨e, he, hep⟩, hmem⟩, hmatch⟩
      exact ⟨⟨e, he, hep⟩, by simpa using hmem, Or.inr (by simpa using hmatch)⟩
    · rintro ⟨⟨e, he, hep⟩, hmem, hor⟩
      refine ⟨⟨⟨e, he, hep⟩, by simpa using hmem⟩, ?_⟩
      rcases hor with hd | hm
      · exact absurd hd hg
      · simpa using hm
  · rw [if_neg hg]
    push_neg at hg
    simp only [List.mem_filter, List.mem_dedup, List.mem_map,
      Bool.and_eq_true, List.any_eq_true, beq_iff_eq, decide_eq_true_eq]
    constructor
    · rintro ⟨⟨e, he, hep⟩, hmem⟩
      exact ⟨⟨e, he, hep⟩, by simpa using hmem, Or.inl hg⟩
    · rintro ⟨⟨e, he, hep⟩, hmem, _⟩
      exact ⟨⟨e, he, hep⟩, by simpa using hmem⟩

theorem core_commitStd (files : List String) (glob_pattern : String)
    (c : Commit) (p : String) (r : Rec) :
    core (commitStd files glob_pattern c p r)
      = coreTouch files glob_pattern c p (core r) := by
  unfold commitStd coreTouch
  by_cases hmem : p ∈ stdRelevant files glob_pattern c
  · rw [if_pos hmem]
    have ht := (stdRelevant_mem files glob_pattern c p).mp hmem
    unfold touchesFast at ht
    rw [Bool.and_eq_true] at ht
    have hok : fastLineOK files glob_pattern p := by
      have := ht.2
      simpa using this
    have hfind : ∃ e, c.entries.find? (fun e => e.path == p) = some e := by
      rw [← Option.isSome_iff_exists, List.find?_isSome]
      have := ht.1
      rw [List.any_eq_true] at this
      obtain ⟨e, he, hep⟩ := this
      exact ⟨e, he, hep⟩
    obtain ⟨e, hf⟩ := hfind
    rw [hf]
    dsimp only
    rw [if_pos hok]
    unfold applyCommitStd core
    rw [hf]
  · rw [if_neg hmem]
    cases hf : c.entries.find? (fun e => e.path == p) with
    | none => rfl
    | some e =>
        dsimp only
        have hok' : ¬fastLineOK files glob_pattern p := by
          intro hok
          refine hmem ((stdRelevant_mem files glob_pattern c p).mpr ?_)
          unfold touchesFast
          rw [Bool.and_eq_true]
          constructor
          · rw [List.any_eq_true]
            have hpe := List.find?_some hf
            exact ⟨e, List.mem_of_find?_eq_some hf, hpe⟩
          · simpa using hok
        rw [if_neg hok']

theorem fast_fold_core (files : List String) (glob_pattern p : String) :
    ∀ (L : List Commit),
      (∀ c ∈ L, ((c.entries.map (fun e => e.path)).Nodup)) →
      ∀ (r : Rec),
        core (L.foldl (fun r c => commitFast files glob_pattern c p r) r)
          = L.foldl (fun cs c => coreTouch files glob_pattern c p cs)
              (core r) := by
  intro L
  induction L with
  | nil => intro _ r; rfl
  | cons c L ih =>
      intro hnd r
      rw [List.foldl_cons, List.foldl_cons,
        ih (fun c' hc' => hnd c' (List.mem_cons_of_mem c hc')),
        core_commitFast files glob_pattern c p r
          (hnd c (List.mem_cons_self c L))]

theorem std_fold_core (files : List String) (glob_pattern p : String) :
    ∀ (L : List Commit) (r : Rec),
      core (L.foldl (fun r c => commitStd files glob_pattern c p r) r)
        = L.foldl (fun cs c => coreTouch files glob_pattern c p cs)
            (core r) := by
  intro L
  induction L with
  | nil => intro r; rfl
  | cons c L ih =>
      intro r
      rw [List.foldl_cons, List.foldl_cons, ih,
        core_commitStd files glob_pattern c p r]

theorem foldl_push {α β : Type} (g : β → α → β)
    (hg : ∀ a b x, g (g x a) b = g (g x b) a) :
    ∀ (L : List α) (x : β) (a : α),
      g (L.foldl g x) a = L.foldl g (g x a) := by
  intro L
  induction L with
  | nil => intro x a; rfl
  | cons d L ih =>
      intro x a
      rw [List.foldl_cons, List.foldl_cons, ih, hg]

theorem foldl_reverse_eq {α β : Type} (g : β → α → β)
    (hg : ∀ a b x, g (g x a) b = g (g x b) a) :
    ∀ (L : List α) (x : β), L.reverse.foldl g x = L.foldl g x := by
  intro L
  induction L with
  | nil => intro x; rfl
  | cons d L ih =>
      intro x
      rw [List.reverse_cons, List.foldl_append, ih, List.foldl_cons,
        List.foldl_cons, List.foldl_nil, foldl_push g hg]

/-- The three header-metadata fields the standard strategy freezes at
the first touch of its newest-first traversal. -/
def stdTriple (r : Rec) : Option String × Option String × Option String :=
  (r.last_commit_hash, r.latest_author, r.last_commit_message)

theorem commitStd_triple_frozen (files : List String)
    (glob_pattern p : String) :
    ∀ (M : List Commit) (r : Rec),
      r.last_commit_hash.isSome = true →
      stdTriple (M.foldl
          (fun r c => commitStd files glob_pattern c p r) r)
        = stdTriple r := by
  intro M
  induction M with
  | nil => intro r _; rfl
  | cons c M ih =>
      intro r hs
      rw [List.foldl_cons]
      have hstep : stdTriple (commitStd files glob_pattern c p r)
            = stdTriple r ∧
          (commitStd files glob_pattern c p r).last_commit_hash.isSome
            = true := by
        unfold commitStd
        by_cases hmem : p ∈ stdRelevant files glob_pattern c
        · rw [if_pos hmem]
          cases hh : r.last_commit_hash with
          | none => rw [hh] at hs; simp at hs
          | some x =>
              unfold applyCommitStd stdTriple
              dsimp only
              simp [hh]
        · rw [if_neg hmem]
          exact ⟨rfl, hs⟩
      rw [ih _ hstep.2, hstep.1]

theorem std_fold_triple (files : List String) (glob_pattern p : String) :
    ∀ (M : List Commit) (r : Rec),
      r.last_commit_hash = none →
      stdTriple (M.foldl
          (fun r c => commitStd files glob_pattern c p r) r)
        = match M.find? (fun c => touchesFast files glob_pattern c p) with
          | some c => (some c.hash, some c.email, some (c.message.take 50))
          | none => stdTriple r := by
  intro M
  induction M with
  | nil => intro r _; rfl
  | cons c M ih =>
      intro r hn
      rw [List.foldl_cons]
      cases ht : touchesFast files glob_pattern c p with
      | true =>
          have hmem := (stdRelevant_mem files glob_pattern c p).mpr ht
          have hstep : commitStd files glob_pattern c p r
              = applyCommitStd c p r := by
            unfold commitStd
            rw [if_pos hmem]
          have htrip : stdTriple (applyCommitStd c p r)
              = (some c.hash, some c.email, some (c.message.take 50)) := by
            unfold applyCommitStd stdTriple
            dsimp only
            simp [hn]
          have hsome : (applyCommitStd c p r).last_commit_hash.isSome
              = true := by
            unfold applyCommitStd
            dsimp only
            simp [hn]
          rw [hstep, commitStd_triple_frozen files glob_pattern p M _ hsome,
            htrip,
            @List.find?_cons_of_pos Commit
              (fun c => touchesFast files glob_pattern c p) c M ht]
      | false =>
          have hmem : p ∉ stdRelevant files glob_pattern c := by
            rw [stdRelevant_mem, ht]
            exact Bool.false_ne_true
          have hstep : commitStd files glob_pattern c p r = r := by
            unfold commitStd
            rw [if_neg hmem]
          rw [hstep, ih r hn,
            @List.find?_cons_of_neg Commit
              (fun c => touchesFast files glob_pattern c p) c M
              (by simp [ht])]

theorem lastTouch_eq_reverse_find (files : List String)
    (glob_pattern p : String) (L : List Commit)
    (hmono : L.Pairwise (fun a b => a.date < b.date)) :
    lastTouchCommit files glob_pattern p L
      = L.reverse.find? (fun c => touchesFast files glob_pattern c p) := by
  induction L using List.reverseRecOn with
  | nil => rfl
  | append_singleton M c ih =>
      have hmono' : M.Pairwise (fun a b => a.date < b.date) :=
        (List.pairwise_append.mp hmono).1
      have hlt : ∀ a ∈ M, a.date < c.date := by
        intro a ha
        exact (List.pairwise_append.mp hmono).2.2 a ha c
          (List.mem_singleton.mpr rfl)
      unfold lastTouchCommit at ih ⊢
      rw [List.foldl_append, List.foldl_cons, List.foldl_nil,
        List.reverse_append, List.reverse_singleton, List.singleton_append]
      cases ht : touchesFast files glob_pattern c p with
      | true =>
          rw [@List.find?_cons_of_pos Commit
            (fun c => touchesFast files glob_pattern c p) c M.reverse
            (by simp [ht])]
          cases hacc : M.foldl (lastTouchStep files glob_pattern p) none with
          | none =>
              unfold lastTouchStep
              rw [if_pos ht]
          | some a =>
              rcases lastTouch_mem files glob_pattern p M none a hacc with
                hn | ⟨hmem, _⟩
              · exact absurd hn (by simp)
              · unfold lastTouchStep
                rw [if_pos ht]
                dsimp only
                rw [if_pos (hlt a hmem)]
      | false =>
          rw [@List.find?_cons_of_neg Commit
            (fun c => touchesFast files glob_pattern c p) c M.reverse
            (by simp [ht])]
          have hid : lastTouchStep files glob_pattern p
              (M.foldl (lastTouchStep files glob_pattern p) none) c
              = M.foldl (lastTouchStep files glob_pattern p) none := by
            unfold lastTouchStep
            rw [if_neg (by simp [ht])]
          rw [hid]
          exact ih hmono'


/-! ## Lemmas: decimal digit strings -/

theorem digitVal?_digitChar10 (m : Nat) (h : m < 10) :
    digitVal? (digitChar10 m) = some m := by
  interval_cases m <;> decide

theorem digitChar10_class (m : Nat) (h : m < 10) :
    isPyWS (digitChar10 m) = false ∧ isDigitChar (digitChar10 m) = true ∧
    digitChar10 m ≠ '|' ∧ digitChar10 m ≠ '\t' ∧ digitChar10 m ≠ '-' ∧
    digitChar10 m ≠ '\n' := by
  interval_cases m <;> exact (by decide)

theorem natDigitsAux_shape : ∀ fuel n, ∃ m rest, m < 10 ∧
    natDigitsAux (fuel + 1) n = digitChar10 m :: rest := by
  intro fuel
  induction fuel with
  | zero =>
      intro n
      by_cases hn : n < 10
      · exact ⟨n, [], hn, by simp [natDigitsAux, hn]⟩
      · exact ⟨n % 10, [], Nat.mod_lt n (by norm_num),
          by simp [natDigitsAux, hn]⟩
  | succ f ih =>
      intro n
      by_cases hn : n < 10
      · exact ⟨n, [], hn, by simp [natDigitsAux, hn]⟩
      · obtain ⟨m, rest, hm, heq⟩ := ih (n / 10)
        refine ⟨m, rest ++ [digitChar10 (n % 10)], hm, ?_⟩
        rw [show natDigitsAux (f + 1 + 1) n
            = natDigitsAux (f + 1) (n / 10) ++ [digitChar10 (n % 10)] from
          by simp [natDigitsAux, hn]]
        rw [heq]
        rfl

theorem natDigits_shape (n : Nat) : ∃ m rest, m < 10 ∧
    natDigits n = digitChar10 m :: rest := natDigitsAux_shape n n

theorem natDigitsAux_all_digit : ∀ fuel n c, c ∈ natDigitsAux fuel n →
    ∃ m, m < 10 ∧ c = digitChar10 m := by
  intro fuel
  induction fuel with
  | zero => intro n c hc; simp [natDigitsAux] at hc
  | succ f ih =>
      intro n c hc
      by_cases hn : n < 10
      · simp [natDigitsAux, hn] at hc
        exact ⟨n, hn, hc⟩
      · simp only [natDigitsAux, if_neg hn, List.mem_append,
          List.mem_singleton] at hc
        rcases hc with hc | hc
        · exact ih _ c hc
        · exact ⟨n % 10, Nat.mod_lt n (by norm_num), hc⟩

theorem natDigits_all_digit (n : Nat) (c : Char) (hc : c ∈ natDigits n) :
    ∃ m, m < 10 ∧ c = digitChar10 m :=
  natDigitsAux_all_digit (n + 1) n c hc

theorem natDigitsAux_val (fuel : Nat) : ∀ n a, n < 10 ^ fuel →
    (natDigitsAux fuel n).foldl
        (fun acc c =>
          acc.bind (fun x => (digitVal? c).map (fun d => 10 * x + d)))
        (some a)
      = some (a * 10 ^ (natDigitsAux fuel n).length + n) := by
  induction fuel with
  | zero =>
      intro n a hn
      interval_cases n
      simp [natDigitsAux]
  | succ f ih =>
      intro n a hn
      by_cases h10 : n < 10
      · rw [show natDigitsAux (f + 1) n = [digitChar10 n] from
          by simp [natDigitsAux, h10]]
        simp [digitVal?_digitChar10 n h10]
        ring
      · have hdiv : n / 10 < 10 ^ f := by
          rw [Nat.div_lt_iff_lt_mul (by norm_num : (0 : Nat) < 10)]
          calc n < 10 ^ (f + 1) := hn
          _ = 10 ^ f * 10 := by ring
        rw [show natDigitsAux (f + 1) n
            = natDigitsAux f (n / 10) ++ [digitChar10 (n % 10)] from
          by simp [natDigitsAux, h10]]
        rw [List.foldl_append, ih (n / 10) a hdiv]
        have hmod : 10 * (n / 10) + n % 10 = n := Nat.div_add_mod n 10
        simp only [List.foldl_cons, List.foldl_nil, Option.bind_eq_bind,
          Option.some_bind, digitVal?_digitChar10 _ (Nat.mod_lt n (by norm_num)),
          Option.map_some, List.length_append, List.length_singleton]
        refine congrArg some ?_
        calc 10 * (a * 10 ^ (natDigitsAux f (n / 10)).length + n / 10)
              + n % 10
            = a * 10 ^ ((natDigitsAux f (n / 10)).length + 1)
              + (10 * (n / 10) + n % 10) := by ring
        _ = a * 10 ^ ((natDigitsAux f (n / 10)).length + 1) + n := by
            rw [hmod]

theorem lt_pow_succ_self (m : Nat) : m < 10 ^ (m + 1) :=
  lt_of_lt_of_le (Nat.lt_pow_self (by norm_num) m)
    (pow_le_pow_right (by norm_num) (Nat.le_succ m))

theorem pyInt?_natDigits (n : Nat) : pyInt? (natDigits n) = some n := by
  obtain ⟨m, rest, hm, heq⟩ := natDigits_shape n
  have hval := natDigitsAux_val (n + 1) n 0 (lt_pow_succ_self n)
  unfold natDigits at heq
  rw [show pyInt? (natDigits n)
      = (natDigitsAux (n + 1) n).foldl
          (fun acc c =>
            acc.bind (fun x => (digitVal? c).map (fun d => 10 * x + d)))
          (some 0) from by rw [natDigits, heq]; rfl]
  rw [hval]
  simp

theorem natDigits_inj (a b : Nat) (h : natDigits a = natDigits b) :
    a = b := by
  have ha := pyInt?_natDigits a
  rw [h, pyInt?_natDigits b] at ha
  exact (Option.some.inj ha).symm

theorem natDigitsAux_irrel : ∀ f₁ f₂ n, n < 10 ^ (f₁ + 1) →
    n < 10 ^ (f₂ + 1) →
    natDigitsAux (f₁ + 1) n = natDigitsAux (f₂ + 1) n := by
  intro f₁
  induction f₁ with
  | zero =>
      intro f₂ n h₁ h₂
      have hn : n < 10 := by simpa using h₁
      cases f₂ with
      | zero => rfl
      | succ g₂ => simp [natDigitsAux, hn]
  | succ g ih =>
      intro f₂ n h₁ h₂
      by_cases hn : n < 10
      · cases f₂ with
        | zero => simp [natDigitsAux, hn]
        | succ g₂ => simp [natDigitsAux, hn]
      · cases f₂ with
        | zero => exact absurd (by simpa using h₂) hn
        | succ g₂ =>
            have hd₁ : n / 10 < 10 ^ (g + 1) := by
              rw [Nat.div_lt_iff_lt_mul (by norm_num : (0 : Nat) < 10)]
              calc n < 10 ^ (g + 1 + 1) := h₁
              _ = 10 ^ (g + 1) * 10 := by ring
            have hd₂ : n / 10 < 10 ^ (g₂ + 1) := by
              rw [Nat.div_lt_iff_lt_mul (by norm_num : (0 : Nat) < 10)]
              calc n < 10 ^ (g₂ + 1 + 1) := h₂
              _ = 10 ^ (g₂ + 1) * 10 := by ring
            rw [show natDigitsAux (g + 1 + 1) n
                = natDigitsAux (g + 1) (n / 10) ++ [digitChar10 (n % 10)] from
              by simp [natDigitsAux, hn]]
            rw [show natDigitsAux (g₂ + 1 + 1) n
                = natDigitsAux (g₂ + 1) (n / 10) ++ [digitChar10 (n % 10)] from
              by simp [natDigitsAux, hn]]
            rw [ih g₂ (n / 10) hd₁ hd₂]

theorem natDigits_decomp (n : Nat) (hn : 10 ≤ n) :
    natDigits n = natDigits (n / 10) ++ [digitChar10 (n % 10)] := by
  obtain ⟨k, hk⟩ : ∃ k, n = k + 1 := ⟨n - 1, by omega⟩
  unfold natDigits
  rw [show natDigitsAux (n + 1) n
      = natDigitsAux n (n / 10) ++ [digitChar10 (n % 10)] from
    by simp [natDigitsAux, Nat.not_lt.mpr hn]]
  refine congrArg (fun l => l ++ [digitChar10 (n % 10)]) ?_
  rw [hk]
  exact natDigitsAux_irrel k ((k + 1) / 10) ((k + 1) / 10)
    (calc (k + 1) / 10 ≤ k := by omega
      _ < 10 ^ (k + 1) := lt_pow_succ_self k)
    (lt_pow_succ_self ((k + 1) / 10))

theorem natDigits_lt_ten (n : Nat) (h : n < 10) :
    natDigits n = [digitChar10 n] := by
  simp [natDigits, natDigitsAux, h]

theorem natDigits_len_two (n : Nat) (h : 10 ≤ n) :
    2 ≤ (natDigits n).length := by
  rw [natDigits_decomp n h]
  obtain ⟨m, rest, hm, heq⟩ := natDigits_shape (n / 10)
  rw [heq]
  simp

theorem digitChar10_lt (m m' : Nat) (hm : m < 10) (hm' : m' < 10) :
    decide (digitChar10 m < digitChar10 m') = decide (m < m') := by
  interval_cases m <;> interval_cases m' <;> decide

theorem digitChar10_inj (m m' : Nat) (hm : m < 10) (hm' : m' < 10)
    (h : digitChar10 m = digitChar10 m') : m = m' := by
  have h1 := digitVal?_digitChar10 m hm
  rw [h, digitVal?_digitChar10 m' hm'] at h1
  exact (Option.some.inj h1).symm

theorem pyStrLt_append_last (x y : Char) : ∀ xs ys : List Char,
    xs.length = ys.length →
    pyStrLt (xs ++ [x]) (ys ++ [y])
      = if xs = ys then decide (x < y) else pyStrLt xs ys := by
  intro xs
  induction xs with
  | nil =>
      intro ys h
      cases ys with
      | nil => by_cases hxy : x = y <;> simp [pyStrLt, hxy]
      | cons b bs => simp at h
  | cons a l ih =>
      intro ys h
      cases ys with
      | nil => simp at h
      | cons b bs =>
          simp only [List.cons_append, pyStrLt]
          by_cases hab : a = b
          · subst hab
            rw [if_pos rfl, if_pos rfl]
            simp only [List.append_eq]
            rw [ih bs (by simpa using h)]
            by_cases hl : l = bs <;> simp [hl]
          · rw [if_neg hab, if_neg hab,
              if_neg (by simp [hab] : ¬(a :: l = b :: bs))]

theorem pyStrLt_natDigits : ∀ a b : Nat,
    (natDigits a).length = (natDigits b).length →
    pyStrLt (natDigits a) (natDigits b) = decide (a < b) := by
  intro a
  induction a using Nat.strong_induction_on with
  | _ a ih =>
      intro b hlen
      by_cases ha : a < 10
      · by_cases hb : b < 10
        · rw [natDigits_lt_ten a ha, natDigits_lt_ten b hb]
          by_cases hab : a = b
          · subst hab
            simp [pyStrLt]
          · have hne : digitChar10 a ≠ digitChar10 b :=
              fun hcontr => hab (digitChar10_inj a b ha hb hcontr)
            simp only [pyStrLt, if_neg hne]
            exact digitChar10_lt a b ha hb
        · exfalso
          rw [natDigits_lt_ten a ha] at hlen
          have h2 := natDigits_len_two b (Nat.not_lt.mp hb)
          simp at hlen
          omega
      · by_cases hb : b < 10
        · exfalso
          rw [natDigits_lt_ten b hb] at hlen
          have h2 := natDigits_len_two a (Nat.not_lt.mp ha)
          simp at hlen
          omega
        · have hlen' : (natDigits (a / 10)).length
              = (natDigits (b / 10)).length := by
            rw [natDigits_decomp a (Nat.not_lt.mp ha),
              natDigits_decomp b (Nat.not_lt.mp hb)] at hlen
            simpa using hlen
          rw [natDigits_decomp a (Nat.not_lt.mp ha),
            natDigits_decomp b (Nat.not_lt.mp hb),
            pyStrLt_append_last _ _ _ _ hlen']
          by_cases heq : natDigits (a / 10) = natDigits (b / 10)
          · rw [if_pos heq]
            have hdiveq : a / 10 = b / 10 := natDigits_inj _ _ heq
            rw [digitChar10_lt _ _ (Nat.mod_lt a (by norm_num))
              (Nat.mod_lt b (by norm_num))]
            exact decide_eq_decide.mpr (by omega)
          · rw [if_neg heq]
            have hdivne : a / 10 ≠ b / 10 :=
              fun hcontr => heq (by rw [hcontr])
            rw [ih (a / 10) (Nat.div_lt_self (by omega) (by norm_num))
              (b / 10) hlen']
            exact decide_eq_decide.mpr (by omega)

/-! ## Lemmas: line splitting and scanning -/

theorem hasChar_iff (x : Char) (l : List Char) :
    hasChar x l = true ↔ x ∈ l := by
  rw [hasChar, List.any_eq_true]
  constructor
  · rintro ⟨c, hc, he⟩
    rw [beq_iff_eq] at he
    exact he ▸ hc
  · intro hx
    exact ⟨x, hx, by simp⟩

theorem hasChar_false (x : Char) (l : List Char) :
    hasChar x l = false ↔ x ∉ l := by
  rw [← Bool.not_eq_true, not_iff_not]
  exact hasChar_iff x l

theorem pyBlank_false_of_mem (l : List Char) (c : Char) (hc : c ∈ l)
    (h : isPyWS c = false) : pyBlank l = false := by
  rw [← Bool.not_eq_true]
  intro hb
  rw [pyBlank, List.all_eq_true] at hb
  rw [hb c hc] at h
  cases h

theorem headD_append (xs ys : List Char) (d : Char) (h : xs ≠ []) :
    (xs ++ ys).headD d = xs.headD d := by
  cases xs with
  | nil => exact absurd rfl h
  | cons a l => rfl

theorem breakAtChar_not_mem (sep : Char) :
    ∀ l : List Char, sep ∉ l → breakAtChar sep l = none := by
  intro l
  induction l with
  | nil => intro _; rfl
  | cons c cs ih =>
      intro h
      have hc : ¬(c = sep) := fun hc => h (hc ▸ List.mem_cons_self c cs)
      rw [breakAtChar, if_neg hc,
        ih (fun hm => h (List.mem_cons_of_mem c hm))]
      rfl

theorem breakAtChar_append (sep : Char) :
    ∀ xs rest : List Char, sep ∉ xs →
    breakAtChar sep (xs ++ sep :: rest) = some (xs, rest) := by
  intro xs
  induction xs with
  | nil => intro rest _; simp [breakAtChar]
  | cons c cs ih =>
      intro rest h
      have hc : ¬(c = sep) := fun hc => h (hc ▸ List.mem_cons_self c cs)
      rw [List.cons_append, breakAtChar, if_neg hc,
        ih rest (fun hm => h (List.mem_cons_of_mem c hm))]
      rfl

theorem splitChar_not_mem (sep : Char) (l : List Char) (h : sep ∉ l) :
    splitChar sep l = [l] := by
  induction l with
  | nil => rfl
  | cons c cs ih =>
      have hc : ¬(c = sep) := fun hc => h (hc ▸ List.mem_cons_self c cs)
      rw [splitChar, if_neg hc, ih (fun hm => h (List.mem_cons_of_mem c hm))]

theorem splitChar_append (sep : Char) :
    ∀ xs rest : List Char, sep ∉ xs →
    splitChar sep (xs ++ sep :: rest) = xs :: splitChar sep rest := by
  intro xs
  induction xs with
  | nil =>
      intro rest _
      rw [List.nil_append, splitChar, if_pos rfl]
  | cons c cs ih =>
      intro rest h
      have hc : ¬(c = sep) := fun hc => h (hc ▸ List.mem_cons_self c cs)
      rw [List.cons_append, splitChar, if_neg hc,
        ih rest (fun hm => h (List.mem_cons_of_mem c hm))]

theorem splitMax_zero (sep : Char) (l : List Char) :
    splitMax sep 0 l = [l] := rfl

theorem splitMax_append (sep : Char) (budget : Nat) (xs rest : List Char)
    (h : sep ∉ xs) :
    splitMax sep (budget + 1) (xs ++ sep :: rest)
      = xs :: splitMax sep budget rest := by
  rw [splitMax, breakAtChar_append sep xs rest h]

/-! ## Lemmas: the rendered stream and its parse -/

theorem stringMk_data (s : String) : String.mk s.data = s := by
  cases s
  rfl

theorem natDigits_no_pipe (n : Nat) : '|' ∉ natDigits n := by
  intro hm
  obtain ⟨m, hm10, hc⟩ := natDigits_all_digit n '|' hm
  exact (digitChar10_class m hm10).2.2.1 hc.symm

theorem natDigits_no_tab (n : Nat) : '\t' ∉ natDigits n := by
  intro hm
  obtain ⟨m, hm10, hc⟩ := natDigits_all_digit n '\t' hm
  exact (digitChar10_class m hm10).2.2.2.1 hc.symm

theorem natDigits_ne_dash (n : Nat) : natDigits n ≠ ['-'] := by
  obtain ⟨m, rest, hm, heq⟩ := natDigits_shape n
  rw [heq]
  intro hcontr
  have hhead : digitChar10 m = '-' := (List.cons.injEq _ _ _ _ ▸ hcontr).1
  exact (digitChar10_class m hm).2.2.2.2.1 hhead

theorem goodCommit_spec (c : Commit) (h : goodCommit c = true) :
    c.hash.data ≠ [] ∧
    isDigitChar (c.hash.data.headD ' ') = false ∧
    '-' ∉ (commitHeaderLine c).take 10 ∧
    '|' ∉ c.hash.data ∧ '|' ∉ c.email.data ∧
    '\t' ∉ c.hash.data ∧ '\t' ∉ c.email.data ∧ '\t' ∉ c.message.data ∧
    '\n' ∉ c.hash.data ∧ '\n' ∉ c.email.data ∧ '\n' ∉ c.message.data ∧
    ∀ e ∈ c.entries, '\t' ∉ e.path.data ∧ '\n' ∉ e.path.data := by
  unfold goodCommit at h
  simp only [Bool.and_eq_true, Bool.not_eq_true', hasChar_false,
    List.all_eq_true] at h
  rcases h with
    ⟨⟨⟨⟨⟨⟨⟨⟨⟨⟨⟨hA, hB⟩, hC⟩, hD⟩, hE⟩, hF⟩, hG⟩, hH⟩, hI⟩, hJ⟩, hK⟩, hM⟩
  refine ⟨fun hnil => by rw [hnil] at hA; simp at hA,
    hB, hC, hD, hE, hF, hG, hH, hI, hJ, hK, hM⟩

theorem fastLogLine_blank (files : List String) (glob_pattern : String)
    (st : Option LogHeader × FastMap) :
    fastLogLine files glob_pattern st [] = st := rfl

theorem fastLogLine_header (files : List String) (glob_pattern : String)
    (c : Commit) (h : goodCommit c = true)
    (st : Option LogHeader × FastMap) :
    fastLogLine files glob_pattern st (commitHeaderLine c)
      = (some (headerOf c), st.2) := by
  obtain ⟨hne, hdig, hdash, hp1, hp2, _⟩ := goodCommit_spec c h
  have hmem : '|' ∈ commitHeaderLine c := by
    unfold commitHeaderLine
    exact List.mem_append_right _ (List.mem_cons_self _ _)
  have hblank : pyBlank (commitHeaderLine c) = false :=
    pyBlank_false_of_mem _ '|' hmem rfl
  have hcheck : headerLineCheck (commitHeaderLine c) = true := by
    unfold headerLineCheck
    rw [(hasChar_iff _ _).mpr hmem,
      show (commitHeaderLine c).headD ' ' = c.hash.data.headD ' ' from by
        unfold commitHeaderLine
        exact headD_append _ _ _ hne,
      hdig, (hasChar_false _ _).mpr hdash]
    rfl
  have hsplit : splitMax '|' 3 (commitHeaderLine c)
      = [c.hash.data, c.email.data, natDigits c.date, c.message.data] := by
    unfold commitHeaderLine
    rw [splitMax_append '|' 2 _ _ hp1, splitMax_append '|' 1 _ _ hp2,
      splitMax_append '|' 0 _ _ (natDigits_no_pipe c.date)]
    rfl
  simp [fastLogLine, hblank, hcheck, hsplit, headerOf]

theorem fastLogLine_numstat (files : List String) (glob_pattern : String)
    (cur : LogHeader) (m : FastMap) (hd : Option LogHeader)
    (hhd : hd = some cur) (e : NumstatEntry)
    (hpath : '\t' ∉ e.path.data) :
    fastLogLine files glob_pattern (hd, m) (numstatLine e)
      = (hd,
          if fastLineOK files glob_pattern e.path then
            updateFastMap m e.path
              (applyNumstatLine cur e.insertions e.deletions)
          else m) := by
  obtain ⟨d₀, rest₀, hd₀, hins⟩ := natDigits_shape e.insertions
  have hnil : natDigits e.insertions ≠ [] := by rw [hins]; simp
  have hheadmem : digitChar10 d₀ ∈ numstatLine e := by
    unfold numstatLine
    exact List.mem_append_left _ (hins ▸ List.mem_cons_self _ _)
  have hblank : pyBlank (numstatLine e) = false :=
    pyBlank_false_of_mem _ _ hheadmem (digitChar10_class d₀ hd₀).1
  have hcheck : headerLineCheck (numstatLine e) = false := by
    unfold headerLineCheck
    rw [show (numstatLine e).headD ' ' = digitChar10 d₀ from by
      unfold numstatLine
      rw [headD_append _ _ _ hnil, hins]
      rfl]
    rw [(digitChar10_class d₀ hd₀).2.1]
    simp
  have htab : hasChar '\t' (numstatLine e) = true := by
    rw [hasChar_iff]
    unfold numstatLine
    exact List.mem_append_right _ (List.mem_cons_self _ _)
  have hsplit : splitChar '\t' (numstatLine e)
      = [natDigits e.insertions, natDigits e.deletions, e.path.data] := by
    unfold numstatLine
    rw [splitChar_append '\t' _ _ (natDigits_no_tab e.insertions),
      splitChar_append '\t' _ _ (natDigits_no_tab e.deletions),
      splitChar_not_mem '\t' _ hpath]
  subst hhd
  simp only [fastLogLine, hblank, Bool.false_eq_true, if_false, hcheck,
    htab, hsplit, if_neg (natDigits_ne_dash e.insertions),
    if_neg (natDigits_ne_dash e.deletions), pyInt?_natDigits,
    stringMk_data]
  rw [if_pos trivial]
  by_cases hok : fastLineOK files glob_pattern e.path <;> simp [hok]

/-! ## The parse / commit-fold bridge -/

/-- Both optional dates of a record are drawn from `S`. -/
def recDatesIn (S : List Nat) (r : Rec) : Prop :=
  (∀ d, r.first_commit = some d → d ∈ S) ∧
  (∀ d, r.last_commit = some d → d ∈ S)

/-- Every record of the dictionary has its dates drawn from `S`. -/
def mapDatesIn (S : List Nat) (m : StatsMap) : Prop :=
  ∀ p r, m p = some r → recDatesIn S r

theorem mapDatesIn_init (S : List Nat) (files : List String) :
    mapDatesIn S (initAllStats files) := by
  intro p r hr
  unfold initAllStats at hr
  unfold recDatesIn
  by_cases hp : p ∈ files
  · rw [if_pos hp] at hr
    cases Option.some.inj hr
    exact ⟨(fun d hd => nomatch hd), (fun d hd => nomatch hd)⟩
  · rw [if_neg hp] at hr
    cases hr

theorem recDatesIn_applyNumstat (c : Commit) (e : NumstatEntry) (r : Rec)
    (S : List Nat) (hcS : c.date ∈ S) (hr : recDatesIn S r) :
    recDatesIn S (applyNumstat c e r) := by
  obtain ⟨h1, h2⟩ := hr
  unfold recDatesIn
  constructor
  · intro d hd
    rw [show (applyNumstat c e r).first_commit
        = optMinStep r.first_commit c.date from rfl] at hd
    unfold optMinStep at hd
    cases hfc : r.first_commit with
    | none =>
        rw [hfc] at hd
        exact (Option.some.inj hd) ▸ hcS
    | some x =>
        rw [hfc] at hd
        dsimp only at hd
        by_cases hlt : c.date < x
        · rw [if_pos hlt] at hd
          exact (Option.some.inj hd) ▸ hcS
        · rw [if_neg hlt] at hd
          exact (Option.some.inj hd) ▸ h1 x hfc
  · intro d hd
    unfold applyNumstat at hd
    dsimp only at hd
    cases hadv : (match r.last_commit with
      | none => true
      | some lc => decide (lc < c.date)) with
    | true =>
        rw [hadv, if_pos rfl] at hd
        exact (Option.some.inj hd) ▸ hcS
    | false =>
        rw [hadv] at hd
        simp only [Bool.false_eq_true, if_false] at hd
        exact h2 d hd

theorem mapDatesIn_fastStep (S : List Nat) (files : List String)
    (glob_pattern : String) (c : Commit) (m : StatsMap)
    (hcS : c.date ∈ S) (hm : mapDatesIn S m) :
    mapDatesIn S (fastStep files glob_pattern m c) := by
  unfold fastStep
  generalize c.entries = es
  induction es generalizing m with
  | nil => exact hm
  | cons e es ih =>
      rw [List.foldl_cons]
      apply ih
      by_cases hok : fastLineOK files glob_pattern e.path
      · rw [if_pos hok]
        intro p r hr
        unfold updateMap at hr
        by_cases hp : p = e.path
        · rw [if_pos hp] at hr
          cases hmp : m p with
          | none => rw [hmp] at hr; cases hr
          | some r₀ =>
              rw [hmp] at hr
              dsimp only [Option.map] at hr
              cases Option.some.inj hr
              exact recDatesIn_applyNumstat c e r₀ S hcS (hm p r₀ hmp)
        · rw [if_neg hp] at hr
          exact hm p r hr
      · rw [if_neg hok]
        exact hm

theorem recBridge_applyNumstat (c : Commit) (e : NumstatEntry) (r : Rec)
    (S : List Nat)
    (hfaith : ∀ a ∈ S, ∀ b ∈ S,
      pyStrLt (natDigits a) (natDigits b) = decide (a < b))
    (hcS : c.date ∈ S) (hr : recDatesIn S r) :
    applyNumstatLine (headerOf c) e.insertions e.deletions (recBridge r)
      = recBridge (applyNumstat c e r) := by
  obtain ⟨hfst, hlst⟩ := hr
  have hmsg : String.mk (c.message.data.take 50) = c.message.take 50 := by
    rw [← String.data_take, stringMk_data]
  have hadv : (match (recBridge r).last_commit with
      | none => true
      | some lc => pyStrLt lc (headerOf c).date)
      = (match r.last_commit with
        | none => true
        | some lc => decide (lc < c.date)) := by
    rw [show (recBridge r).last_commit = r.last_commit.map natDigits
      from rfl]
    cases hlc : r.last_commit with
    | none => rfl
    | some lc =>
        dsimp only [Option.map]
        exact hfaith lc (hlst lc hlc) c.date hcS
  have hfc' : (match (recBridge r).first_commit with
      | none => some (headerOf c).date
      | some fc =>
          if pyStrLt (headerOf c).date fc then some (headerOf c).date
          else some fc)
      = (optMinStep r.first_commit c.date).map natDigits := by
    rw [show (recBridge r).first_commit = r.first_commit.map natDigits
      from rfl]
    cases hfc : r.first_commit with
    | none => rfl
    | some fc =>
        dsimp only [Option.map]
        rw [show (headerOf c).date = natDigits c.date from rfl,
          hfaith c.date hcS fc (hfst fc hfc)]
        unfold optMinStep
        by_cases hlt : c.date < fc <;> simp [hlt]
  unfold applyNumstatLine applyNumstat
  dsimp only
  rw [hadv, hfc']
  cases hadvb : (match r.last_commit with
    | none => true
    | some lc => decide (lc < c.date)) with
  | true =>
      unfold recBridge headerOf
      simp [stringMk_data, hmsg]
  | false =>
      unfold recBridge headerOf
      simp [stringMk_data]

theorem mapBridge_update (m : StatsMap) (p : String) (f : Rec → Rec)
    (g : FastRec → FastRec)
    (hfg : ∀ r, m p = some r → g (recBridge r) = recBridge (f r)) :
    updateFastMap (mapBridge m) p g = mapBridge (updateMap m p f) := by
  funext q
  unfold updateFastMap mapBridge updateMap
  by_cases hq : q = p
  · subst hq
    rw [if_pos rfl, if_pos rfl]
    cases hmp : m q with
    | none => rfl
    | some r =>
        dsimp only [Option.map]
        rw [hfg r hmp]
  · rw [if_neg hq, if_neg hq]

theorem numstatFold_bridge (files : List String) (glob_pattern : String)
    (c : Commit) (S : List Nat)
    (hfaith : ∀ a ∈ S, ∀ b ∈ S,
      pyStrLt (natDigits a) (natDigits b) = decide (a < b))
    (hcS : c.date ∈ S) :
    ∀ (entries : List NumstatEntry) (m : StatsMap),
      mapDatesIn S m →
      (∀ e ∈ entries, '\t' ∉ e.path.data) →
      (entries.map numstatLine).foldl (fastLogLine files glob_pattern)
          (some (headerOf c), mapBridge m)
        = (some (headerOf c),
            mapBridge (entries.foldl
              (fun m e =>
                if fastLineOK files glob_pattern e.path then
                  updateMap m e.path (applyNumstat c e)
                else m) m)) := by
  intro entries
  induction entries with
  | nil => intro m _ _; rfl
  | cons e es ih =>
      intro m hm htabs
      rw [List.map_cons, List.foldl_cons, List.foldl_cons,
        fastLogLine_numstat files glob_pattern (headerOf c) (mapBridge m)
          _ rfl e (htabs e (List.mem_cons_self e es))]
      by_cases hok : fastLineOK files glob_pattern e.path
      · rw [if_pos hok, if_pos hok,
          mapBridge_update m e.path (applyNumstat c e)
            (applyNumstatLine (headerOf c) e.insertions e.deletions)
            (fun r hr =>
              recBridge_applyNumstat c e r S hfaith hcS (hm e.path r hr))]
        refine ih _ ?_ (fun e' he' => htabs e' (List.mem_cons_of_mem e he'))
        intro q r hr
        unfold updateMap at hr
        by_cases hq : q = e.path
        · rw [if_pos hq] at hr
          cases hmq : m q with
          | none => rw [hmq] at hr; cases hr
          | some r₀ =>
              rw [hmq] at hr
              dsimp only [Option.map] at hr
              cases Option.some.inj hr
              exact recDatesIn_applyNumstat c e r₀ S hcS (hm q r₀ hmq)
        · rw [if_neg hq] at hr
          exact hm q r hr
      · rw [if_neg hok, if_neg hok]
        exact ih m hm (fun e' he' => htabs e' (List.mem_cons_of_mem e he'))

theorem renderCommit_bridge (files : List String) (glob_pattern : String)
    (c : Commit) (S : List Nat)
    (hfaith : ∀ a ∈ S, ∀ b ∈ S,
      pyStrLt (natDigits a) (natDigits b) = decide (a < b))
    (hgood : goodCommit c = true) (hcS : c.date ∈ S)
    (m : StatsMap) (hm : mapDatesIn S m) (cur : Option LogHeader) :
    (renderCommit c).foldl (fastLogLine files glob_pattern)
        (cur, mapBridge m)
      = (some (headerOf c), mapBridge (fastStep files glob_pattern m c)) := by
  have htabs : ∀ e ∈ c.entries, '\t' ∉ e.path.data :=
    fun e he => ((goodCommit_spec c hgood).2.2.2.2.2.2.2.2.2.2.2 e he).1
  unfold renderCommit
  rw [List.foldl_cons, fastLogLine_header files glob_pattern c hgood,
    List.foldl_append,
    numstatFold_bridge files glob_pattern c S hfaith hcS c.entries m hm
      htabs]
  rw [show (c.entries.foldl
      (fun m e =>
        if fastLineOK files glob_pattern e.path then
          updateMap m e.path (applyNumstat c e)
        else m) m) = fastStep files glob_pattern m c from rfl]
  rfl

theorem renderGitLog_bridge (files : List String) (glob_pattern : String)
    (S : List Nat)
    (hfaith : ∀ a ∈ S, ∀ b ∈ S,
      pyStrLt (natDigits a) (natDigits b) = decide (a < b)) :
    ∀ (commits : List Commit) (cur : Option LogHeader) (m : StatsMap),
      (∀ c ∈ commits, goodCommit c = true) →
      (∀ c ∈ commits, c.date ∈ S) →
      mapDatesIn S m →
      ∃ cur', (renderGitLog commits).foldl (fastLogLine files glob_pattern)
          (cur, mapBridge m)
        = (cur', mapBridge (commits.foldl (fastStep files glob_pattern) m)) := by
  intro commits
  induction commits with
  | nil => intro cur m _ _ _; exact ⟨cur, rfl⟩
  | cons c cs ih =>
      intro cur m hg hd hm
      rw [show renderGitLog (c :: cs)
          = renderCommit c ++ renderGitLog cs from by
        unfold renderGitLog; rw [List.flatMap_cons]]
      rw [List.foldl_append,
        renderCommit_bridge files glob_pattern c S hfaith
          (hg c (List.mem_cons_self c cs)) (hd c (List.mem_cons_self c cs))
          m hm cur]
      rw [List.foldl_cons]
      exact ih (some (headerOf c)) (fastStep files glob_pattern m c)
        (fun c' hc' => hg c' (List.mem_cons_of_mem c hc'))
        (fun c' hc' => hd c' (List.mem_cons_of_mem c hc'))
        (mapDatesIn_fastStep S files glob_pattern c m
          (hd c (List.mem_cons_self c cs)) hm)

/-- The rendered stream of a well-formed history parses to exactly the
commit-granularity fold (with the date fields rendered to digit
strings), provided the rendered dates are width-uniform, so that the
string comparison the parser performs agrees with the numeric
order. -/
theorem renderGitLog_stats (commits : List Commit) (files : List String)
    (glob_pattern : String)
    (hgood : ∀ c ∈ commits, goodCommit c = true)
    (hW : ∀ a ∈ commits, ∀ b ∈ commits,
      (natDigits a.date).length = (natDigits b.date).length) :
    aggregate_all_file_stats_fast (renderGitLog commits) files glob_pattern
      = mapBridge (fastFromCommits commits files glob_pattern) := by
  have hfaith : ∀ a ∈ commits.map (fun c => c.date),
      ∀ b ∈ commits.map (fun c => c.date),
      pyStrLt (natDigits a) (natDigits b) = decide (a < b) := by
    intro a ha b hb
    rw [List.mem_map] at ha hb
    obtain ⟨ca, hca, rfl⟩ := ha
    obtain ⟨cb, hcb, rfl⟩ := hb
    exact pyStrLt_natDigits _ _ (hW ca hca cb hcb)
  have hinit : initAllFastStats files = mapBridge (initAllStats files) := by
    funext p
    unfold initAllFastStats mapBridge initAllStats
    by_cases hp : p ∈ files
    · rw [if_pos hp, if_pos hp]
      rfl
    · rw [if_neg hp, if_neg hp]
      rfl
  obtain ⟨cur', hfold⟩ := renderGitLog_bridge files glob_pattern
    (commits.map (fun c => c.date)) hfaith commits none
    (initAllStats files) hgood
    (fun c hc => List.mem_map_of_mem _ hc)
    (mapDatesIn_init _ files)
  unfold aggregate_all_file_stats_fast fastFromCommits
  rw [hinit, hfold]

/-! ## C10: totality of the aggregation results -/

/-- Does this raw line name `p` as the file of its numstat columns
(third tab-separated field)?  Over-approximates the lines that could
update `p`'s record. -/
def lineCredits (l : List Char) (p : String) : Bool :=
  match splitChar '\t' l with
  | _ :: _ :: p2 :: _ => String.mk p2 == p
  | _ => false

theorem updateFastMap_isSome (m : FastMap) (q : String)
    (f : FastRec → FastRec) (p : String) :
    ((updateFastMap m q f) p).isSome = (m p).isSome := by
  unfold updateFastMap
  by_cases hp : p = q
  · rw [if_pos hp, hp]
    cases m q <;> rfl
  · rw [if_neg hp]

theorem fastLogLine_isSome (files : List String) (glob_pattern : String)
    (st : Option LogHeader × FastMap) (line : List Char) (p : String) :
    (((fastLogLine files glob_pattern st line).2) p).isSome
      = ((st.2) p).isSome := by
  unfold fastLogLine
  by_cases hb : pyBlank line = true
  · rw [if_pos hb]
  · rw [if_neg hb]
    by_cases hh : headerLineCheck line = true
    · rw [if_pos hh]
      cases hsp : splitMax '|' 3 line with
      | nil => rfl
      | cons a t1 =>
          cases t1 with
          | nil => rfl
          | cons b t2 =>
              cases t2 with
              | nil => rfl
              | cons d t3 => rfl
    · rw [if_neg hh]
      cases hcur : st.1 with
      | none => rfl
      | some cur =>
          dsimp only
          by_cases ht : hasChar '\t' line = true
          · rw [if_pos ht]
            cases hsp : splitChar '\t' line with
            | nil => rfl
            | cons p0 t1 =>
                cases t1 with
                | nil => rfl
                | cons p1 t2 =>
                    cases t2 with
                    | nil => rfl
                    | cons p2 t3 =>
                        dsimp only
                        cases hi0 : (if p0 = ['-'] then some 0
                            else pyInt? p0) with
                        | none => rfl
                        | some ins =>
                            cases hi1 : (if p1 = ['-'] then some 0
                                else pyInt? p1) with
                            | none => rfl
                            | some del =>
                                dsimp only
                                by_cases hok : fastLineOK files
                                    glob_pattern (String.mk p2)
                                · rw [if_pos hok]
                                  exact updateFastMap_isSome _ _ _ _
                                · rw [if_neg hok]
          · rw [if_neg ht]
theorem fastLogLine_untouched (files : List String) (glob_pattern : String)
    (st : Option LogHeader × FastMap) (line : List Char) (p : String)
    (h : lineCredits line p = false) :
    ((fastLogLine files glob_pattern st line).2) p = (st.2) p := by
  unfold fastLogLine
  by_cases hb : pyBlank line = true
  · rw [if_pos hb]
  · rw [if_neg hb]
    by_cases hh : headerLineCheck line = true
    · rw [if_pos hh]
      cases hsp : splitMax '|' 3 line with
      | nil => rfl
      | cons a t1 =>
          cases t1 with
          | nil => rfl
          | cons b t2 =>
              cases t2 with
              | nil => rfl
              | cons d t3 => rfl
    · rw [if_neg hh]
      cases hcur : st.1 with
      | none => rfl
      | some cur =>
          dsimp only
          by_cases ht : hasChar '\t' line = true
          · rw [if_pos ht]
            cases hsp : splitChar '\t' line with
            | nil => rfl
            | cons p0 t1 =>
                cases t1 with
                | nil => rfl
                | cons p1 t2 =>
                    cases t2 with
                    | nil => rfl
                    | cons p2 t3 =>
                        dsimp only
                        unfold lineCredits at h
                        rw [hsp] at h
                        simp only [beq_eq_false_iff_ne, ne_eq] at h
                        cases hi0 : (if p0 = ['-'] then some 0
                            else pyInt? p0) with
                        | none => rfl
                        | some ins =>
                            cases hi1 : (if p1 = ['-'] then some 0
                                else pyInt? p1) with
                            | none => rfl
                            | some del =>
                                dsimp only
                                by_cases hok : fastLineOK files
                                    glob_pattern (String.mk p2)
                                · rw [if_pos hok]
                                  dsimp only
                                  unfold updateFastMap
                                  rw [if_neg (fun hc => h hc.symm)]
                                · rw [if_neg hok]
          · rw [if_neg ht]
theorem fastFold_isSome (files : List String) (glob_pattern : String)
    (lines : List (List Char)) :
    ∀ (st : Option LogHeader × FastMap) (p : String),
      (((lines.foldl (fastLogLine files glob_pattern) st).2) p).isSome
        = ((st.2) p).isSome := by
  induction lines with
  | nil => intro st p; rfl
  | cons l ls ih =>
      intro st p
      rw [List.foldl_cons, ih]
      exact fastLogLine_isSome files glob_pattern st l p

theorem fastFold_untouched (files : List String) (glob_pattern : String)
    (lines : List (List Char)) (p : String) :
    (∀ l ∈ lines, lineCredits l p = false) →
    ∀ (st : Option LogHeader × FastMap),
      ((lines.foldl (fastLogLine files glob_pattern) st).2) p = (st.2) p := by
  induction lines with
  | nil => intro _ st; rfl
  | cons l ls ih =>
      intro h st
      rw [List.foldl_cons, ih (fun l' hl' => h l' (List.mem_cons_of_mem l hl'))]
      exact fastLogLine_untouched files glob_pattern st l p
        (h l (List.mem_cons_self l ls))

/-- C10: for every input file list, both the fast line-level parser
(over an arbitrary raw `git log` stream) and the standard strategy
return a map defined exactly on that list — a requested file credited
by no stream line (respectively touched by no commit) keeps its
freshly initialized record (0 commits, 0 insertions, 0 deletions,
empty author set, and absent first/last-commit dates, latest author,
hash and message), and no path outside the input list ever appears in
either result. -/
theorem C10_aggregation_totality (lines : List (List Char))
    (commits : List Commit) (files : List String) (glob_pattern : String)
    (p : String) :
    (aggregate_all_file_stats_fast lines files glob_pattern p = none
      ↔ p ∉ files) ∧
    (aggregate_all_file_stats_standard commits files glob_pattern p = none
      ↔ p ∉ files) ∧
    (p ∈ files → (∀ l ∈ lines, lineCredits l p = false) →
      aggregate_all_file_stats_fast lines files glob_pattern p
          = some (initFastStats p)) ∧
    (p ∈ files → (∀ c ∈ commits, ∀ e ∈ c.entries, e.path ≠ p) →
      aggregate_all_file_stats_standard commits files glob_pattern p
          = some (initStats p)) ∧
    (initFastStats p).commits = 0 ∧ (initFastStats p).insertions = 0 ∧
    (initFastStats p).deletions = 0 ∧ (initFastStats p).authors = ∅ ∧
    (initFastStats p).first_commit = none ∧
    (initFastStats p).last_commit = none ∧
    (initFastStats p).latest_author = none ∧
    (initFastStats p).last_commit_hash = none ∧
    (initFastStats p).last_commit_message = none ∧
    (initStats p).commits = 0 ∧ (initStats p).authors = ∅ ∧
    (initStats p).first_commit = none ∧ (initStats p).last_commit = none ∧
    (initStats p).latest_author = none ∧
    (initStats p).last_commit_hash = none ∧
    (initStats p).last_commit_message = none := by
  have hsome : (aggregate_all_file_stats_fast lines files glob_pattern
      p).isSome = (initAllFastStats files p).isSome :=
    fastFold_isSome files glob_pattern lines (none, initAllFastStats files) p
  have hfold : ∀ (step : Rec → Commit → Rec),
      (∀ c ∈ commits, ∀ r, step r c = r) →
      commits.foldl step (initStats p) = initStats p := by
    intro step hstep
    induction commits with
    | nil => rfl
    | cons c L ih =>
        rw [List.foldl_cons, hstep c (List.mem_cons_self c L)]
        exact ih (fun c' hc' r => hstep c' (List.mem_cons_of_mem c hc') r)
  refine ⟨?_, ?_, ?_, ?_, rfl, rfl, rfl, rfl, rfl, rfl, rfl, rfl, rfl,
    rfl, rfl, rfl, rfl, rfl, rfl, rfl⟩
  · by_cases hp : p ∈ files
    · rw [show initAllFastStats files p = some (initFastStats p) from by
        unfold initAllFastStats; rw [if_pos hp]] at hsome
      constructor
      · intro hnone
        rw [hnone] at hsome
        cases hsome
      · intro hcontr
        exact absurd hp hcontr
    · rw [show initAllFastStats files p = none from by
        unfold initAllFastStats; rw [if_neg hp]] at hsome
      constructor
      · intro _
        exact hp
      · intro _
        cases hagg : aggregate_all_file_stats_fast lines files
            glob_pattern p with
        | none => rfl
        | some r => rw [hagg] at hsome; cases hsome
  · rw [stdAgg_apply]
    by_cases hp : p ∈ files <;> simp [hp]
  · intro hp hcred
    rw [show aggregate_all_file_stats_fast lines files glob_pattern p
        = initAllFastStats files p from
      fastFold_untouched files glob_pattern lines p hcred
        (none, initAllFastStats files)]
    unfold initAllFastStats
    rw [if_pos hp]
  · intro hp htouch
    rw [stdAgg_apply, if_pos hp]
    have := hfold (fun r c => commitStd files glob_pattern c p r)
      (fun c hc r => commitStd_id files glob_pattern c p r (htouch c hc))
    rw [this]

/-- C10 (witness): the two untouched-file conjuncts of
`C10_aggregation_totality` for a requested file `a`, a one-line stream
crediting only `b`, and a one-commit history touching only `b`. -/
theorem C10_witness :
    aggregate_all_file_stats_fast ["5\t3\tb".data] ["a"]
        DEFAULT_GLOB_PATTERN "a" = some (initFastStats "a") ∧
    aggregate_all_file_stats_standard
        [{ hash := "h1", email := "u@x", date := 1, message := "m",
           entries := [{ insertions := 1, deletions := 0, path := "b" }] }]
        ["a"] DEFAULT_GLOB_PATTERN "a" = some (initStats "a") :=
  ⟨(C10_aggregation_totality ["5\t3\tb".data]
      [{ hash := "h1", email := "u@x", date := 1, message := "m",
         entries := [{ insertions := 1, deletions := 0, path := "b" }] }]
      ["a"] DEFAULT_GLOB_PATTERN "a").2.2.1 (by decide) (by decide),
   (C10_aggregation_totality ["5\t3\tb".data]
      [{ hash := "h1", email := "u@x", date := 1, message := "m",
         entries := [{ insertions := 1, deletions := 0, path := "b" }] }]
      ["a"] DEFAULT_GLOB_PATTERN "a").2.2.2.1 (by decide) (by decide)⟩

/-! ## C3: the metadata recorded by the fast strategy -/

/-- C3 (amended): in the fast strategy's oldest-first parse of a
well-formed stream — every commit hash nonempty, starting with a
non-digit (otherwise the header test at `stats_aggregator.py` line 114
rejects the header and its numstat lines are credited to the previous
recognized header), fields free of the delimiter characters, and the
rendered dates width-uniform — for every file in the working set
touched by at least one commit (`lastTouchCommit` resolves to some
commit `c`), the recorded `last_commit_hash`, `latest_author` and
`last_commit_message` (subject truncated to 50 characters) come from
`c`: a commit that touches the file and whose date attains the maximum
over all touching commits; `c` is the first commit, in parse order, to
strictly exceed every earlier touching date, so when several touching
commits share the maximal date the recorded metadata is the earliest
of them, not the chronologically most recent touch. -/
theorem C3_fast_metadata_from_max_date_touch (commits : List Commit)
    (files : List String) (glob_pattern p : String) (c : Commit)
    (hp : p ∈ files)
    (hgood : ∀ c' ∈ commits, goodCommit c' = true)
    (hW : ∀ a ∈ commits, ∀ b ∈ commits,
      (natDigits a.date).length = (natDigits b.date).length)
    (hl : lastTouchCommit files glob_pattern p commits = some c) :
    ∃ r, aggregate_all_file_stats_fast (renderGitLog commits) files
        glob_pattern p = some r ∧
      r.last_commit = some (natDigits c.date) ∧
      r.last_commit_hash = some c.hash ∧
      r.latest_author = some c.email ∧
      r.last_commit_message = some (c.message.take 50) ∧
      c ∈ commits ∧ touchesFast files glob_pattern c p = true ∧
      ∀ d ∈ commits, touchesFast files glob_pattern d p = true →
        d.date ≤ c.date := by
  have hq := fastFold_last files glob_pattern p commits (initStats p) none
    rfl
  unfold lastTouchCommit at hl
  rw [hl] at hq
  rcases lastTouch_mem files glob_pattern p commits none c hl with hn | hmem
  · exact absurd hn (by simp)
  have hfm : fastFromCommits commits files glob_pattern p
      = some (commits.foldl
          (fun r c => commitFast files glob_pattern c p r) (initStats p)) := by
    rw [fastAgg_apply, if_pos hp]
  refine ⟨recBridge (commits.foldl
      (fun r c => commitFast files glob_pattern c p r) (initStats p)),
    ?_, ?_, ?_, ?_, ?_, hmem.1, hmem.2,
    lastTouch_max files glob_pattern p commits none c hl⟩
  · rw [congrFun (renderGitLog_stats commits files glob_pattern hgood hW) p]
    unfold mapBridge
    rw [hfm]
    rfl
  · exact congrArg (fun q => q.1.map natDigits) hq
  · exact congrArg (fun q => q.2.1) hq
  · exact congrArg (fun q => q.2.2.1) hq
  · exact congrArg (fun q => q.2.2.2) hq

/-- C3 (witness): `C3_fast_metadata_from_max_date_touch` at the
rendered stream of a two-commit history whose second commit has the
strictly larger date: the recorded metadata is the second commit's. -/
theorem C3_witness :
    ∃ r, aggregate_all_file_stats_fast
        (renderGitLog
          [{ hash := "h1", email := "u1@x", date := 1, message := "m1",
             entries := [{ insertions := 1, deletions := 0, path := "f" }] },
           { hash := "h2", email := "u2@x", date := 2, message := "m2",
             entries := [{ insertions := 3, deletions := 1, path := "f" }] }])
        ["f"] DEFAULT_GLOB_PATTERN "f" = some r ∧
      r.last_commit = some (natDigits 2) ∧
      r.last_commit_hash = some "h2" ∧
      r.latest_author = some "u2@x" ∧
      r.last_commit_message = some (String.take "m2" 50) ∧
      ({ hash := "h2", email := "u2@x", date := 2, message := "m2",
         entries := [{ insertions := 3, deletions := 1, path := "f" }] }
          : Commit) ∈
        [{ hash := "h1", email := "u1@x", date := 1, message := "m1",
           entries := [{ insertions := 1, deletions := 0, path := "f" }] },
         { hash := "h2", email := "u2@x", date := 2, message := "m2",
           entries := [{ insertions := 3, deletions := 1, path := "f" }] }] ∧
      touchesFast ["f"] DEFAULT_GLOB_PATTERN
        { hash := "h2", email := "u2@x", date := 2, message := "m2",
          entries := [{ insertions := 3, deletions := 1, path := "f" }] }
        "f" = true ∧
      ∀ d ∈ [{ hash := "h1", email := "u1@x", date := 1, message := "m1",
               entries := [{ insertions := 1, deletions := 0,
                             path := "f" }] },
             { hash := "h2", email := "u2@x", date := 2, message := "m2",
               entries := [{ insertions := 3, deletions := 1,
                             path := "f" }] }],
        touchesFast ["f"] DEFAULT_GLOB_PATTERN d "f" = true →
        d.date ≤ 2 :=
  C3_fast_metadata_from_max_date_touch
    [{ hash := "h1", email := "u1@x", date := 1, message := "m1",
       entries := [{ insertions := 1, deletions := 0, path := "f" }] },
     { hash := "h2", email := "u2@x", date := 2, message := "m2",
       entries := [{ insertions := 3, deletions := 1, path := "f" }] }]
    ["f"] DEFAULT_GLOB_PATTERN "f"
    { hash := "h2", email := "u2@x", date := 2, message := "m2",
      entries := [{ insertions := 3, deletions := 1, path := "f" }] }
    (by decide) (by decide) (by decide) (by decide)

/-- C3 (counterexample): two refutations of the chronologically-most-
recent reading.  First, a commit whose hex hash starts with a digit
(`3b`) is never recognized as a header, so although it touches `f`
with the strictly largest date, the recorded hash is the previous
commit's `a1`.  Second, with two recognized same-date touches the tie
does not overwrite, so the recorded hash `h1` is the earlier, not the
most recent, touching commit's. -/
theorem C3_counterexample :
    (aggregate_all_file_stats_fast
        (renderGitLog
          [{ hash := "a1", email := "u@x", date := 1, message := "m1",
             entries := [{ insertions := 1, deletions := 0, path := "f" }] },
           { hash := "3b", email := "v@x", date := 2, message := "m2",
             entries := [{ insertions := 1, deletions := 0, path := "f" }] }])
        ["f"] DEFAULT_GLOB_PATTERN "f").bind (fun r => r.last_commit_hash)
      = some "a1" ∧
    touchesFast ["f"] DEFAULT_GLOB_PATTERN
      { hash := "3b", email := "v@x", date := 2, message := "m2",
        entries := [{ insertions := 1, deletions := 0, path := "f" }] }
      "f" = true ∧
    ("a1" : String) ≠ "3b" ∧
    (aggregate_all_file_stats_fast
        (renderGitLog
          [{ hash := "h1", email := "u@x", date := 5, message := "m1",
             entries := [{ insertions := 1, deletions := 0, path := "f" }] },
           { hash := "h2", email := "u@x", date := 5, message := "m2",
             entries := [{ insertions := 1, deletions := 0, path := "f" }] }])
        ["f"] DEFAULT_GLOB_PATTERN "f").bind (fun r => r.last_commit_hash)
      = some "h1" ∧
    touchesFast ["f"] DEFAULT_GLOB_PATTERN
      { hash := "h2", email := "u@x", date := 5, message := "m2",
        entries := [{ insertions := 1, deletions := 0, path := "f" }] }
      "f" = true ∧
    ("h1" : String) ≠ "h2" := by
  decide

/-! ## C2: agreement of the two aggregation strategies -/

/-- The two strategies compared at commit granularity: identical
commits, insertions, deletions and authors given per-commit-distinct
entry paths, and identical metadata under strictly increasing dates.
The claim theorem below transports this to the line-level parser
through `renderGitLog_stats`. -/
theorem fast_std_agree (commits : List Commit) (files : List String)
    (glob_pattern p : String)
    (hnd : ∀ c ∈ commits, ((c.entries.map (fun e => e.path)).Nodup)) :
    ((fastFromCommits commits files glob_pattern p).map
        (fun r => r.commits)
      = (aggregate_all_file_stats_standard commits.reverse files
          glob_pattern p).map (fun r => r.commits)) ∧
    ((fastFromCommits commits files glob_pattern p).map
        (fun r => r.insertions)
      = (aggregate_all_file_stats_standard commits.reverse files
          glob_pattern p).map (fun r => r.insertions)) ∧
    ((fastFromCommits commits files glob_pattern p).map
        (fun r => r.deletions)
      = (aggregate_all_file_stats_standard commits.reverse files
          glob_pattern p).map (fun r => r.deletions)) ∧
    ((fastFromCommits commits files glob_pattern p).map
        (fun r => r.authors)
      = (aggregate_all_file_stats_standard commits.reverse files
          glob_pattern p).map (fun r => r.authors)) ∧
    (commits.Pairwise (fun a b => a.date < b.date) →
      ((fastFromCommits commits files glob_pattern p).map
          (fun r => r.last_commit_hash)
        = (aggregate_all_file_stats_standard commits.reverse files
            glob_pattern p).map (fun r => r.last_commit_hash)) ∧
      ((fastFromCommits commits files glob_pattern p).map
          (fun r => r.latest_author)
        = (aggregate_all_file_stats_standard commits.reverse files
            glob_pattern p).map (fun r => r.latest_author)) ∧
      ((fastFromCommits commits files glob_pattern p).map
          (fun r => r.last_commit_message)
        = (aggregate_all_file_stats_standard commits.reverse files
            glob_pattern p).map (fun r => r.last_commit_message))) := by
  by_cases hp : p ∈ files
  · have h1 : fastFromCommits commits files glob_pattern p
        = some (commits.foldl
            (fun r c => commitFast files glob_pattern c p r)
            (initStats p)) := by
      rw [fastAgg_apply, if_pos hp]
    have h2 : aggregate_all_file_stats_standard commits.reverse files
        glob_pattern p
        = some (commits.reverse.foldl
            (fun r c => commitStd files glob_pattern c p r)
            (initStats p)) := by
      rw [stdAgg_apply, if_pos hp]
    have hcore : core (commits.foldl
          (fun r c => commitFast files glob_pattern c p r) (initStats p))
        = core (commits.reverse.foldl
            (fun r c => commitStd files glob_pattern c p r)
            (initStats p)) := by
      rw [fast_fold_core files glob_pattern p commits hnd (initStats p),
        std_fold_core files glob_pattern p commits.reverse (initStats p),
        foldl_reverse_eq _
          (fun a b x => coreTouch_comm files glob_pattern b a p x) commits
          (core (initStats p))]
    refine ⟨?_, ?_, ?_, ?_, ?_⟩
    · rw [h1, h2]
      exact congrArg (fun cs => some cs.commits) hcore
    · rw [h1, h2]
      exact congrArg (fun cs => some cs.insertions) hcore
    · rw [h1, h2]
      exact congrArg (fun cs => some cs.deletions) hcore
    · rw [h1, h2]
      exact congrArg (fun cs => some cs.authors) hcore
    · intro hmono
      have hq := fastFold_last files glob_pattern p commits (initStats p)
        none rfl
      have hlt := lastTouch_eq_reverse_find files glob_pattern p commits
        hmono
      unfold lastTouchCommit at hlt
      rw [hlt] at hq
      have hs := std_fold_triple files glob_pattern p commits.reverse
        (initStats p) rfl
      cases hfind : commits.reverse.find?
          (fun c => touchesFast files glob_pattern c p) with
      | none =>
          rw [hfind] at hq hs
          refine ⟨?_, ?_, ?_⟩ <;> rw [h1, h2]
          · exact (congrArg (fun q => some q.2.1) hq).trans
              (congrArg (fun t => some t.1) hs).symm
          · exact (congrArg (fun q => some q.2.2.1) hq).trans
              (congrArg (fun t => some t.2.1) hs).symm
          · exact (congrArg (fun q => some q.2.2.2) hq).trans
              (congrArg (fun t => some t.2.2) hs).symm
      | some c =>
          rw [hfind] at hq hs
          refine ⟨?_, ?_, ?_⟩ <;> rw [h1, h2]
          · exact (congrArg (fun q => some q.2.1) hq).trans
              (congrArg (fun t => some t.1) hs).symm
          · exact (congrArg (fun q => some q.2.2.1) hq).trans
              (congrArg (fun t => some t.2.1) hs).symm
          · exact (congrArg (fun q => some q.2.2.2) hq).trans
              (congrArg (fun t => some t.2.2) hs).symm
  · have h1 : fastFromCommits commits files glob_pattern p
        = none := by
      rw [fastAgg_apply, if_neg hp]
    have h2 : aggregate_all_file_stats_standard commits.reverse files
        glob_pattern p = none := by
      rw [stdAgg_apply, if_neg hp]
    rw [h1, h2]
    exact ⟨rfl, rfl, rfl, rfl, fun _ => ⟨rfl, rfl, rfl⟩⟩

/-- Claim C2: fed the same commit history — rendered oldest-first into
the bulk stream for the fast parser, newest-first to the standard
iterator — the two strategies produce identical commits, insertions,
deletions and author sets for every path, provided the stream is
well-formed (hashes nonempty and not digit-led, delimiter-free fields,
width-uniform dates) and each commit lists each file at most once in
its numstat; and when commit dates are strictly increasing the
last_commit_hash, latest_author and last_commit_message fields also
agree (with equal-date ties, or a digit-led hash, the two strategies
may pick different commits — see the counterexample). -/
theorem C2_strategy_agreement (commits : List Commit) (files : List String)
    (glob_pattern p : String)
    (hgood : ∀ c ∈ commits, goodCommit c = true)
    (hW : ∀ a ∈ commits, ∀ b ∈ commits,
      (natDigits a.date).length = (natDigits b.date).length)
    (hnd : ∀ c ∈ commits, ((c.entries.map (fun e => e.path)).Nodup)) :
    ((aggregate_all_file_stats_fast (renderGitLog commits) files
        glob_pattern p).map (fun r => r.commits)
      = (aggregate_all_file_stats_standard commits.reverse files
          glob_pattern p).map (fun r => r.commits)) ∧
    ((aggregate_all_file_stats_fast (renderGitLog commits) files
        glob_pattern p).map (fun r => r.insertions)
      = (aggregate_all_file_stats_standard commits.reverse files
          glob_pattern p).map (fun r => r.insertions)) ∧
    ((aggregate_all_file_stats_fast (renderGitLog commits) files
        glob_pattern p).map (fun r => r.deletions)
      = (aggregate_all_file_stats_standard commits.reverse files
          glob_pattern p).map (fun r => r.deletions)) ∧
    ((aggregate_all_file_stats_fast (renderGitLog commits) files
        glob_pattern p).map (fun r => r.authors)
      = (aggregate_all_file_stats_standard commits.reverse files
          glob_pattern p).map (fun r => r.authors)) ∧
    (commits.Pairwise (fun a b => a.date < b.date) →
      ((aggregate_all_file_stats_fast (renderGitLog commits) files
          glob_pattern p).map (fun r => r.last_commit_hash)
        = (aggregate_all_file_stats_standard commits.reverse files
            glob_pattern p).map (fun r => r.last_commit_hash)) ∧
      ((aggregate_all_file_stats_fast (renderGitLog commits) files
          glob_pattern p).map (fun r => r.latest_author)
        = (aggregate_all_file_stats_standard commits.reverse files
            glob_pattern p).map (fun r => r.latest_author)) ∧
      ((aggregate_all_file_stats_fast (renderGitLog commits) files
          glob_pattern p).map (fun r => r.last_commit_message)
        = (aggregate_all_file_stats_standard commits.reverse files
            glob_pattern p).map (fun r => r.last_commit_message))) := by
  have hb := congrFun (renderGitLog_stats commits files glob_pattern hgood
    hW) p
  obtain ⟨h1, h2, h3, h4, h5⟩ :=
    fast_std_agree commits files glob_pattern p hnd
  have hproj : ∀ {α : Type} (f : FastRec → α) (g : Rec → α),
      (∀ r : Rec, f (recBridge r) = g r) →
      (mapBridge (fastFromCommits commits files glob_pattern) p).map f
        = (fastFromCommits commits files glob_pattern p).map g := by
    intro α f g hfg
    unfold mapBridge
    cases fastFromCommits commits files glob_pattern p with
    | none => rfl
    | some r =>
        dsimp only [Option.map]
        rw [hfg r]
  refine ⟨?_, ?_, ?_, ?_, fun hmono => ?_⟩
  · rw [hb, hproj (fun r => r.commits) (fun r => r.commits) (fun r => rfl)]
    exact h1
  · rw [hb, hproj (fun r => r.insertions) (fun r => r.insertions)
      (fun r => rfl)]
    exact h2
  · rw [hb, hproj (fun r => r.deletions) (fun r => r.deletions)
      (fun r => rfl)]
    exact h3
  · rw [hb, hproj (fun r => r.authors) (fun r => r.authors) (fun r => rfl)]
    exact h4
  · obtain ⟨m1, m2, m3⟩ := h5 hmono
    refine ⟨?_, ?_, ?_⟩
    · rw [hb, hproj (fun r => r.last_commit_hash)
        (fun r => r.last_commit_hash) (fun r => rfl)]
      exact m1
    · rw [hb, hproj (fun r => r.latest_author) (fun r => r.latest_author)
        (fun r => rfl)]
      exact m2
    · rw [hb, hproj (fun r => r.last_commit_message)
        (fun r => r.last_commit_message) (fun r => rfl)]
      exact m3

/-- C2 (counterexample): a two-commit history satisfying every proviso
of the original claim — strictly increasing dates, duplicate-free
numstats — where the second commit's hex hash starts with a digit
(`3b`).  The fast parser never recognizes that header (line 114's
digit test) and credits its numstat line to the first commit, so the
author sets and the most-recent-touch hashes of the two strategies
differ. -/
theorem C2_counterexample :
    ((aggregate_all_file_stats_fast
        (renderGitLog
          [{ hash := "a1", email := "alice@x", date := 1, message := "m1",
             entries := [{ insertions := 1, deletions := 0, path := "f" }] },
           { hash := "3b", email := "bob@x", date := 2, message := "m2",
             entries := [{ insertions := 2, deletions := 1, path := "f" }] }])
        ["f"] DEFAULT_GLOB_PATTERN "f").map (fun r => r.authors)
      ≠ (aggregate_all_file_stats_standard
          [{ hash := "3b", email := "bob@x", date := 2, message := "m2",
             entries := [{ insertions := 2, deletions := 1, path := "f" }] },
           { hash := "a1", email := "alice@x", date := 1, message := "m1",
             entries := [{ insertions := 1, deletions := 0, path := "f" }] }]
          ["f"] DEFAULT_GLOB_PATTERN "f").map (fun r => r.authors)) ∧
    ((aggregate_all_file_stats_fast
        (renderGitLog
          [{ hash := "a1", email := "alice@x", date := 1, message := "m1",
             entries := [{ insertions := 1, deletions := 0, path := "f" }] },
           { hash := "3b", email := "bob@x", date := 2, message := "m2",
             entries := [{ insertions := 2, deletions := 1, path := "f" }] }])
        ["f"] DEFAULT_GLOB_PATTERN "f").bind (fun r => r.last_commit_hash)
      = some "a1") ∧
    ((aggregate_all_file_stats_standard
        [{ hash := "3b", email := "bob@x", date := 2, message := "m2",
           entries := [{ insertions := 2, deletions := 1, path := "f" }] },
         { hash := "a1", email := "alice@x", date := 1, message := "m1",
           entries := [{ insertions := 1, deletions := 0, path := "f" }] }]
        ["f"] DEFAULT_GLOB_PATTERN "f").bind (fun r => r.last_commit_hash)
      = some "3b") ∧
    (∀ c ∈ [({ hash := "a1", email := "alice@x", date := 1,
               message := "m1",
               entries := [{ insertions := 1, deletions := 0,
                             path := "f" }] } : Commit),
            { hash := "3b", email := "bob@x", date := 2, message := "m2",
              entries := [{ insertions := 2, deletions := 1,
                            path := "f" }] }],
      ((c.entries.map (fun e => e.path)).Nodup)) ∧
    (1 : Nat) < 2 := by
  decide

theorem C2_witness :
    (∀ c ∈ ([{ hash := "w1", email := "a@x", date := 1, message := "m1",
               entries := [{ insertions := 2, deletions := 1,
                             path := "f" }] },
             { hash := "w2", email := "b@x", date := 2, message := "m2",
               entries := [{ insertions := 3, deletions := 0,
                             path := "f" }] }] : List Commit),
        goodCommit c = true) ∧
    ((aggregate_all_file_stats_fast
        (renderGitLog
          [{ hash := "w1", email := "a@x", date := 1, message := "m1",
             entries := [{ insertions := 2, deletions := 1, path := "f" }] },
           { hash := "w2", email := "b@x", date := 2, message := "m2",
             entries := [{ insertions := 3, deletions := 0, path := "f" }] }])
        ["f"] DEFAULT_GLOB_PATTERN "f").map (fun r => r.commits)
      = (aggregate_all_file_stats_standard
          ([{ hash := "w1", email := "a@x", date := 1, message := "m1",
              entries := [{ insertions := 2, deletions := 1,
                            path := "f" }] },
            { hash := "w2", email := "b@x", date := 2, message := "m2",
              entries := [{ insertions := 3, deletions := 0,
                            path := "f" }] }] : List Commit).reverse
          ["f"] DEFAULT_GLOB_PATTERN "f").map (fun r => r.commits)) ∧
    ((aggregate_all_file_stats_fast
        (renderGitLog
          [{ hash := "w1", email := "a@x", date := 1, message := "m1",
             entries := [{ insertions := 2, deletions := 1, path := "f" }] },
           { hash := "w2", email := "b@x", date := 2, message := "m2",
             entries := [{ insertions := 3, deletions := 0, path := "f" }] }])
        ["f"] DEFAULT_GLOB_PATTERN "f").map (fun r => r.last_commit_hash)
      = (aggregate_all_file_stats_standard
          ([{ hash := "w1", email := "a@x", date := 1, message := "m1",
              entries := [{ insertions := 2, deletions := 1,
                            path := "f" }] },
            { hash := "w2", email := "b@x", date := 2, message := "m2",
              entries := [{ insertions := 3, deletions := 0,
                            path := "f" }] }] : List Commit).reverse
          ["f"] DEFAULT_GLOB_PATTERN "f").map
          (fun r => r.last_commit_hash)) :=
  ⟨by decide,
   (C2_strategy_agreement
      [{ hash := "w1", email := "a@x", date := 1, message := "m1",
         entries := [{ insertions := 2, deletions := 1, path := "f" }] },
       { hash := "w2", email := "b@x", date := 2, message := "m2",
         entries := [{ insertions := 3, deletions := 0, path := "f" }] }]
      ["f"] DEFAULT_GLOB_PATTERN "f" (by decide) (by decide) (by decide)).1,
   ((C2_strategy_agreement
      [{ hash := "w1", email := "a@x", date := 1, message := "m1",
         entries := [{ insertions := 2, deletions := 1, path := "f" }] },
       { hash := "w2", email := "b@x", date := 2, message := "m2",
         entries := [{ insertions := 3, deletions := 0, path := "f" }] }]
      ["f"] DEFAULT_GLOB_PATTERN "f" (by decide) (by decide)
      (by decide)).2.2.2.2 (by simp)).1⟩
